import Mathlib

/-
Verification development for the chasm assembler front end
(src/tokens.rs and src/parser.rs): a shallow embedding of the lexer and
the recursive-descent parser, together with theorems about the claims of
the specification.

Conventions of the embedding:
* Rust `i64` values are modelled as `Int`; the lexer checks the
  `i64` range explicitly where the Rust code would fail on overflow
  (`from_str_radix(..).unwrap()`).
* Rust panics become the `Fatal` error of an `Except`; each constructor
  of `Fatal` corresponds to one panic site of the source.
* A Rust function returning `Option<Statement>` while also being able to
  panic becomes `Except Fatal (Option Statement × TokenStream)`, the
  stream being threaded explicitly.
* Loops of the source become fuel-indexed structural recursions.  The
  fuel is always instantiated with `remaining tokens + 1`, which is
  proved sufficient (`Fatal.outOfFuel` is unreachable from the entry
  point); this is the termination argument for the parser.
-/

namespace Chasm

/-- Token kinds, one constructor per variant of the Rust enumeration
`TokenKind` in tokens.rs.  The `Whitespace` variant of the source is
matched and skipped by the lexer (`logos::skip`), so it never occurs in
a token sequence and needs no constructor here. -/
inductive TokenKind where
  | Tilde
  | Grave
  | Pound
  | Plus
  | PlusPlus
  | Minus
  | MinusMinus
  | Star
  | Slash
  | Mod
  | Bang
  | Greater
  | GreaterGreater
  | Less
  | LessLess
  | Amp
  | AmpAmp
  | Pipe
  | PipePipe
  | Xor
  | Var
  | Const
  | Include
  | AtDirective
  | MacroRules
  | ForBang
  | Ident (s : String)
  | HexLit (n : Int)
  | BinLit (n : Int)
  | OctLit (n : Int)
  | IntLit (n : Int)
  | StrLit (s : String)
  | CharLit (c : Char)
  | Equal
  | LeftParen
  | RightParen
  | LeftBrace
  | RightBrace
  | Comma
  | Colon
  | Dot
  | Semicolon
  | DoubleColon
  deriving DecidableEq, Repr

/-- A token: kind plus the raw lexeme text, as in parser.rs
(`struct Token`). -/
structure Token where
  kind : TokenKind
  text : String
  deriving DecidableEq, Repr

/-- The fatal-error channel.  Every constructor except `outOfFuel`
corresponds to one panic site of the source; `outOfFuel` is the fuel
sentinel of the embedding and is proved unreachable from the entry
point. -/
inductive Fatal where
  | unexpectedEof
  | expected (want found : TokenKind)
  | invalidEscape (s : String)
  | overflow
  | expectedStrAfterInclude (found : TokenKind)
  | expectedName (found : TokenKind)
  | unexpectedParamTok (found : TokenKind)
  | expectedBlockInDef
  | expectedLoopVarName
  | expectedIntInForStart
  | expectedIntInForEnd
  | expectedBlockInForLoop
  | expectedIdent (found : TokenKind)
  | expectedIntLit (found : TokenKind)
  | outOfFuel
  deriving DecidableEq, Repr

/-! ## Lexer (tokens.rs) -/

/-- `[A-Za-z_]`, the first character of an identifier or directive
name. -/
def isIdentStart (c : Char) : Bool := c.isAlpha || c == '_'

/-- `[A-Za-z0-9_]`, a continuation character of an identifier. -/
def isIdentCont (c : Char) : Bool := c.isAlphanum || c == '_'

/-- `[0-9A-Fa-f]`, a hexadecimal digit. -/
def isHexDigitC (c : Char) : Bool :=
  c.isDigit || ('a' ≤ c && c ≤ 'f') || ('A' ≤ c && c ≤ 'F')

/-- `[01]`, a binary digit. -/
def isBinDigitC (c : Char) : Bool := c == '0' || c == '1'

/-- `[0-7]`, an octal digit. -/
def isOctDigitC (c : Char) : Bool := '0' ≤ c && c ≤ '7'

/-- `[ \t\r\n]`, whitespace skipped by the lexer. -/
def isWs (c : Char) : Bool := c == ' ' || c == '\t' || c == '\r' || c == '\n'

/-- Numeric value of one digit (as used by `from_str_radix` for every
radix of the source; for radix 2, 8 and 10 only the decimal-digit branch
is reachable). -/
def digitValC (c : Char) : Nat :=
  if c.isDigit then c.toNat - '0'.toNat
  else if 'a' ≤ c && c ≤ 'f' then c.toNat - 'a'.toNat + 10
  else if 'A' ≤ c && c ≤ 'F' then c.toNat - 'A'.toNat + 10
  else 0

/-- The value of a digit string in a given radix, the mathematical
content of `i64::from_str_radix`. -/
def radixVal (radix : Nat) (ds : List Char) : Nat :=
  ds.foldl (fun a c => a * radix + digitValC c) 0

/-- Largest `i64` value; `from_str_radix` fails (and the source then
panics on `unwrap`) beyond it. -/
def i64Max : Nat := 9223372036854775807

/-- Build a numeric token: the value of the digits in the radix, failing
as the source does where `from_str_radix(..).unwrap()` would panic on
overflow.  Returns the token and the number of characters consumed. -/
def numToken (mk : Int → TokenKind) (radix : Nat) (lexeme digits : List Char) :
    Except Fatal (Option Token × Nat) :=
  let v := radixVal radix digits
  if v ≤ i64Max then .ok (some ⟨mk (Int.ofNat v), String.mk lexeme⟩, lexeme.length)
  else .error .overflow

/-- Decimal literal `[0-9]+` (`lex.slice().parse::<i64>()`). -/
def lexDec (cs : List Char) : Except Fatal (Option Token × Nat) :=
  let ds := cs.takeWhile Char.isDigit
  numToken TokenKind.IntLit 10 ds ds

/-- Numeric literals, first character already known to be a digit.
Mirrors the regex priorities of tokens.rs: `0x[0-9A-Fa-f]+`,
`0b[01]+`, `0o[0-7]+` (all lowercase prefixes, longest match), falling
back to the decimal rule. -/
def lexNum (cs : List Char) : Except Fatal (Option Token × Nat) :=
  match cs with
  | '0' :: 'x' :: d :: rest =>
    if isHexDigitC d then
      let ds := d :: rest.takeWhile isHexDigitC
      numToken TokenKind.HexLit 16 ('0' :: 'x' :: ds) ds
    else lexDec cs
  | '0' :: 'b' :: d :: rest =>
    if isBinDigitC d then
      let ds := d :: rest.takeWhile isBinDigitC
      numToken TokenKind.BinLit 2 ('0' :: 'b' :: ds) ds
    else lexDec cs
  | '0' :: 'o' :: d :: rest =>
    if isOctDigitC d then
      let ds := d :: rest.takeWhile isOctDigitC
      numToken TokenKind.OctLit 8 ('0' :: 'o' :: ds) ds
    else lexDec cs
  | _ => lexDec cs

/-- Length of the body of a string literal after the opening quote, up
to and including the closing quote, following the regex
`"([^"\\]|\\.)*"`: any character other than quote and backslash, or a
backslash followed by any character other than a newline.  `none` when
the regex does not match (no token is produced there). -/
def strLitLen : List Char → Option Nat
  | [] => none
  | '"' :: _ => some 1
  | '\\' :: c :: rest =>
    if c == '\n' then none else (strLitLen rest).map (· + 2)
  | '\\' :: [] => none
  | _ :: rest => (strLitLen rest).map (· + 1)

/-- `parse_char` of tokens.rs: value of a character-literal lexeme
(quotes included).  The unknown-escape arm panics in the source. -/
def parse_char (s : String) : Except Fatal Char :=
  let inner := (s.toList.drop 1).dropLast
  match inner with
  | '\\' :: rest =>
    match rest with
    | ['n'] => .ok '\n'
    | ['t'] => .ok '\t'
    | ['r'] => .ok '\r'
    | ['\''] => .ok '\''
    | ['\\'] => .ok '\\'
    | _ => .error (.invalidEscape (String.mk inner))
  | c :: _ => .ok c
  | [] => .error (.invalidEscape (String.mk inner))

/-- One step of the lexer: the token (or skip) starting at the head of
the input and the number of characters consumed.  Mirrors the rule set
of tokens.rs under maximal munch with the priorities of logos
(a keyword wins over an identifier of the same length; a two-character
operator wins over its one-character prefix; an unmatched character
produces an error token, which `TokenStream::new` filters out, modelled
as a one-character skip). -/
def lexStepCons (c : Char) (cs : List Char) : Except Fatal (Option Token × Nat) :=
  if isWs c then .ok (none, 1 + (cs.takeWhile isWs).length)
    else if isIdentStart c then
      let run := c :: cs.takeWhile isIdentCont
      let rest := cs.drop (cs.takeWhile isIdentCont).length
      let name := String.mk run
      if name = "var" then .ok (some ⟨.Var, name⟩, run.length)
      else if name = "const" then .ok (some ⟨.Const, name⟩, run.length)
      else if name = "include" then .ok (some ⟨.Include, name⟩, run.length)
      else if name = "macro_rules" && rest.head? = some '!' then
        .ok (some ⟨.MacroRules, name.push '!'⟩, run.length + 1)
      else if name = "for" && rest.head? = some '!' then
        .ok (some ⟨.ForBang, name.push '!'⟩, run.length + 1)
      else .ok (some ⟨.Ident name, name⟩, run.length)
    else if c.isDigit then lexNum (c :: cs)
    else if c == '@' then
      match cs with
      | d :: rest =>
        if isIdentStart d then
          let run := d :: rest.takeWhile isIdentCont
          .ok (some ⟨.AtDirective, String.mk ('@' :: run)⟩, 1 + run.length)
        else .ok (none, 1)
      | [] => .ok (none, 1)
    else if c == '"' then
      match strLitLen cs with
      | some n =>
        let lexeme := String.mk ((c :: cs).take (n + 1))
        .ok (some ⟨.StrLit lexeme, lexeme⟩, n + 1)
      | none => .ok (none, 1)
    else if c == '\'' then
      match cs with
      | '\\' :: e :: q :: _ =>
        if q == '\'' && e != '\n' then do
          let lexeme := String.mk ['\'', '\\', e, '\'']
          let ch ← parse_char lexeme
          .ok (some ⟨.CharLit ch, lexeme⟩, 4)
        else .ok (none, 1)
      | c2 :: q :: _ =>
        if q == '\'' && c2 != '\\' && c2 != '\'' then
          let lexeme := String.mk ['\'', c2, '\'']
          .ok (some ⟨.CharLit c2, lexeme⟩, 3)
        else .ok (none, 1)
      | _ => .ok (none, 1)
    else
      match c, cs with
      | '+', '+' :: _ => .ok (some ⟨.PlusPlus, "++"⟩, 2)
      | '+', _ => .ok (some ⟨.Plus, "+"⟩, 1)
      | '-', '-' :: _ => .ok (some ⟨.MinusMinus, "--"⟩, 2)
      | '-', _ => .ok (some ⟨.Minus, "-"⟩, 1)
      | '>', '>' :: _ => .ok (some ⟨.GreaterGreater, ">>"⟩, 2)
      | '>', _ => .ok (some ⟨.Greater, ">"⟩, 1)
      | '<', '<' :: _ => .ok (some ⟨.LessLess, "<<"⟩, 2)
      | '<', _ => .ok (some ⟨.Less, "<"⟩, 1)
      | '&', '&' :: _ => .ok (some ⟨.AmpAmp, "&&"⟩, 2)
      | '&', _ => .ok (some ⟨.Amp, "&"⟩, 1)
      | '|', '|' :: _ => .ok (some ⟨.PipePipe, "||"⟩, 2)
      | '|', _ => .ok (some ⟨.Pipe, "|"⟩, 1)
      | ':', ':' :: _ => .ok (some ⟨.DoubleColon, "::"⟩, 2)
      | ':', _ => .ok (some ⟨.Colon, ":"⟩, 1)
      | '~', _ => .ok (some ⟨.Tilde, "~"⟩, 1)
      | '*', _ => .ok (some ⟨.Star, "*"⟩, 1)
      | '/', _ => .ok (some ⟨.Slash, "/"⟩, 1)
      | '%', _ => .ok (some ⟨.Mod, "%"⟩, 1)
      | '!', _ => .ok (some ⟨.Bang, "!"⟩, 1)
      | '^', _ => .ok (some ⟨.Xor, "^"⟩, 1)
      | '=', _ => .ok (some ⟨.Equal, "="⟩, 1)
      | '(', _ => .ok (some ⟨.LeftParen, "("⟩, 1)
      | ')', _ => .ok (some ⟨.RightParen, ")"⟩, 1)
      | ',', _ => .ok (some ⟨.Comma, ","⟩, 1)
      | '.', _ => .ok (some ⟨.Dot, "."⟩, 1)
      | ';', _ => .ok (some ⟨.Semicolon, ";"⟩, 1)
      | c', _ =>
        if c' == '#' then .ok (some ⟨.Pound, String.mk [c']⟩, 1)
        else if c'.toNat == 96 then .ok (some ⟨.Grave, String.mk [c']⟩, 1)
        else if c'.toNat == 123 then .ok (some ⟨.LeftBrace, String.mk [c']⟩, 1)
        else if c'.toNat == 125 then .ok (some ⟨.RightBrace, String.mk [c']⟩, 1)
        else .ok (none, 1)

/-- One step of the lexer on the full input shape. -/
def lexStep : List Char → Except Fatal (Option Token × Nat)
  | [] => .ok (none, 0)
  | c :: cs => lexStepCons c cs

/-- The lexer loop: repeatedly take one step; each step consumes at least
one character of a nonempty input, so fuel `length` suffices. -/
def lexLoop : Nat → List Char → Except Fatal (List Token)
  | 0, _ => .ok []
  | _, [] => .ok []
  | f + 1, c :: cs => do
    let (t?, n) ← lexStep (c :: cs)
    let ts ← lexLoop f ((c :: cs).drop (max n 1))
    match t? with
    | some t => .ok (t :: ts)
    | none => .ok ts

/-- The whole lexer: the token sequence of an input text (errors of the
logos lexer are filtered out by `TokenStream::new`; callback panics
propagate). -/
def tokenize (input : String) : Except Fatal (List Token) :=
  lexLoop input.toList.length input.toList

/-! ## TokenStream (parser.rs) -/

/-- The materialized token sequence plus a cursor (`struct TokenStream`
of parser.rs). -/
structure TokenStream where
  tokens : List Token
  pos : Nat
  deriving DecidableEq, Repr

/-- `TokenStream::new`: lex the input and start the cursor at 0. -/
def TokenStream.new (input : String) : Except Fatal TokenStream := do
  let toks ← tokenize input
  .ok ⟨toks, 0⟩

/-- `TokenStream::peek`: read the token at the cursor without moving. -/
def TokenStream.peek (ts : TokenStream) : Option Token := ts.tokens[ts.pos]?

/-- `TokenStream::next`: read the token at the cursor and advance when
one is there. -/
def TokenStream.next (ts : TokenStream) : Option Token × TokenStream :=
  match ts.tokens[ts.pos]? with
  | some t => (some t, ⟨ts.tokens, ts.pos + 1⟩)
  | none => (none, ts)

/-- `self.stream.next()` with the result discarded. -/
def TokenStream.advance (ts : TokenStream) : TokenStream := ts.next.2

/-- `TokenStream::expect`: advance and fail hard when the observed kind
differs from the expected one (both panic sites of the source). -/
def TokenStream.expect (ts : TokenStream) (want : TokenKind) :
    Except Fatal TokenStream :=
  match ts.next with
  | (none, _) => .error .unexpectedEof
  | (some t, ts') =>
    if t.kind = want then .ok ts' else .error (.expected want t.kind)

/-- `TokenStream::eof`. -/
def TokenStream.eof (ts : TokenStream) : Bool := ts.tokens.length ≤ ts.pos

/-- Remaining token count at the cursor; the fuel measure of the
embedding. -/
def TokenStream.rem (ts : TokenStream) : Nat := ts.tokens.length - ts.pos

/-! ## Statements (parser.rs) -/

/-- The AST node (`enum Statement` of parser.rs). -/
inductive Statement where
  | VarAssign (name : String) (expr : Int)
  | ConstAssign (name : String) (expr : Int)
  | Label (name : String)
  | Instruction (name : String) (args : List String)
  | Directive (name : String) (args : List String)
  | Include (file : String)
  | MacroDef (name : String) (params : List String) (body : List Statement)
  | ForLoop (var : String) (start stop : Int) (body : List Statement)
  | Block (body : List Statement)
  deriving Repr

/-! ## Statement parsers (parser.rs)

Each Rust method on `Parser` becomes a function from the stream;
`Option<Statement>` return plus panics becomes
`Except Fatal (Option Statement × TokenStream)`. -/

/-- `Parser::lookahead_is_label`, verbatim: inspects up to four tokens
from the cursor without touching it.  (The `Dot` and double-`Colon`
patterns are kept even though the only caller guards on an identifier
at the cursor.) -/
def lookaheadIsLabel (ts : TokenStream) : Bool :=
  match (ts.tokens[ts.pos]?).map Token.kind, (ts.tokens[ts.pos + 1]?).map Token.kind with
  | some (.Ident _), some .Colon => true
  | some .Dot, some (.Ident _) =>
    (match (ts.tokens[ts.pos + 2]?).map Token.kind with
     | some .Colon => true
     | _ => false)
  | some .Colon, some .Colon =>
    (match (ts.tokens[ts.pos + 2]?).map Token.kind with
     | some (.Ident _) => true
     | _ => false) &&
    (match (ts.tokens[ts.pos + 3]?).map Token.kind with
     | some .Colon => true
     | _ => false)
  | _, _ => false

/-- `Parser::parse_label`. -/
def parseLabel (ts : TokenStream) : Except Fatal (Option Statement × TokenStream) :=
  match ts.next with
  | (none, ts') => .ok (none, ts')
  | (some t, ts') =>
    match t.kind with
    | .Ident name => do
      let ts'' ← ts'.expect .Colon
      .ok (some (.Label name), ts'')
    | _ => .ok (none, ts')

/-- The argument rule of `Parser::parse_instruction`: which token kinds
are consumed as arguments, and the string each one contributes
(identifier text, decimal rendering of an integer literal, raw
string-literal lexeme, single character of a character literal). -/
def renderInstrArg : TokenKind → Option String
  | .Ident s => some s
  | .IntLit n => some (toString n)
  | .StrLit s => some s
  | .CharLit c => some (String.mk [c])
  | _ => none

/-- The argument loop of `parse_instruction`; one fuel tick per consumed
token, so fuel `rem` suffices. -/
def instrArgsAux : Nat → TokenStream → List String × TokenStream
  | 0, ts => ([], ts)
  | f + 1, ts =>
    match ts.peek with
    | none => ([], ts)
    | some t =>
      match renderInstrArg t.kind with
      | some s =>
        let (args, ts') := instrArgsAux f ts.advance
        (s :: args, ts')
      | none => ([], ts)

/-- The argument loop of `parse_instruction` at its natural fuel. -/
def instrArgs (ts : TokenStream) : List String × TokenStream :=
  instrArgsAux ts.rem ts

/-- `Parser::parse_instruction`. -/
def parseInstruction (ts : TokenStream) : Except Fatal (Option Statement × TokenStream) :=
  match ts.next with
  | (none, ts') => .ok (none, ts')
  | (some t, ts') =>
    match t.kind with
    | .Ident n =>
      let (args, ts'') := instrArgs ts'
      .ok (some (.Instruction n args), ts'')
    | _ => .ok (none, ts')

/-- The argument rule of `Parser::parse_directive`: identifiers and raw
string lexemes verbatim, integer literals rendered to decimal. -/
def renderDirArg : TokenKind → Option String
  | .Ident s => some s
  | .StrLit s => some s
  | .IntLit n => some (toString n)
  | _ => none

/-- The argument loop of `parse_directive`. -/
def dirArgsAux : Nat → TokenStream → List String × TokenStream
  | 0, ts => ([], ts)
  | f + 1, ts =>
    match ts.peek with
    | none => ([], ts)
    | some t =>
      match renderDirArg t.kind with
      | some s =>
        let (args, ts') := dirArgsAux f ts.advance
        (s :: args, ts')
      | none => ([], ts)

/-- The argument loop of `parse_directive` at its natural fuel. -/
def dirArgs (ts : TokenStream) : List String × TokenStream :=
  dirArgsAux ts.rem ts

/-- `Parser::parse_directive`: take the `@name` token, strip the leading
marker characters (`trim_start_matches`), then the argument run. -/
def parseDirective (ts : TokenStream) : Except Fatal (Option Statement × TokenStream) :=
  match ts.next with
  | (none, ts') => .ok (none, ts')
  | (some t, ts') =>
    let name := String.mk (t.text.toList.dropWhile (· == '@'))
    let (args, ts'') := dirArgs ts'
    .ok (some (.Directive name args), ts'')

/-- `Parser::parse_include`. -/
def parseInclude (ts : TokenStream) : Except Fatal (Option Statement × TokenStream) := do
  let ts1 ← ts.expect .Include
  match ts1.next with
  | (none, ts') => .ok (none, ts')
  | (some t, ts') =>
    match t.kind with
    | .StrLit s => .ok (some (.Include s), ts')
    | k => .error (.expectedStrAfterInclude k)

/-- `Parser::parse_var`. -/
def parseVar (ts : TokenStream) : Except Fatal (Option Statement × TokenStream) :=
  match ts.advance.next with
  | (none, ts') => .ok (none, ts')
  | (some t, ts') =>
    match t.kind with
    | .Ident name => do
      let ts2 ← ts'.expect .Equal
      match ts2.next with
      | (none, ts3) => .ok (none, ts3)
      | (some t2, ts3) =>
        match t2.kind with
        | .IntLit v => .ok (some (.VarAssign name v), ts3)
        | k => .error (.expectedIntLit k)
    | k => .error (.expectedIdent k)

/-- `Parser::parse_const`. -/
def parseConst (ts : TokenStream) : Except Fatal (Option Statement × TokenStream) :=
  match ts.advance.next with
  | (none, ts') => .ok (none, ts')
  | (some t, ts') =>
    match t.kind with
    | .Ident name => do
      let ts2 ← ts'.expect .Equal
      match ts2.next with
      | (none, ts3) => .ok (none, ts3)
      | (some t2, ts3) =>
        match t2.kind with
        | .IntLit v => .ok (some (.ConstAssign name v), ts3)
        | k => .error (.expectedIntLit k)
    | k => .error (.expectedIdent k)

/-- The parameter-list loop of `Parser::parse_macro`: identifiers are
collected, commas skipped, a right parenthesis ends the list, anything
else panics; exhaustion propagates the `None` of `next()?`. -/
def paramListAux : Nat → TokenStream → Except Fatal (Option (List String) × TokenStream)
  | 0, ts => .ok (none, ts)
  | f + 1, ts =>
    match ts.next with
    | (none, ts') => .ok (none, ts')
    | (some t, ts') =>
      match t.kind with
      | .Ident p => do
        match ← paramListAux f ts' with
        | (some ps, ts'') => .ok (some (p :: ps), ts'')
        | (none, ts'') => .ok (none, ts'')
      | .RightParen => .ok (some [], ts')
      | .Comma => paramListAux f ts'
      | k => .error (.unexpectedParamTok k)

/-- The parameter-list loop at its natural fuel. -/
def paramList (ts : TokenStream) : Except Fatal (Option (List String) × TokenStream) :=
  paramListAux ts.rem ts

/-- The statement-parser type: what `parse_macro`, `parse_for_loop`,
`parse_block` and the driver loops receive as the recursive entry. -/
abbrev PStmt := TokenStream → Except Fatal (Option Statement × TokenStream)

/-- The body loop of `Parser::parse_block`: parse statements until a
right brace or the end; an unrecognized position additionally skips a
token (the recovery of the source). -/
def blockBodyAux (pstmt : PStmt) : Nat → TokenStream → Except Fatal (List Statement × TokenStream)
  | 0, _ => .error .outOfFuel
  | f + 1, ts =>
    match ts.peek with
    | none => .ok ([], ts)
    | some t =>
      if t.kind = .RightBrace then .ok ([], ts)
      else do
        let (r, ts') ← pstmt ts
        match r with
        | some s => do
          let (body, ts'') ← blockBodyAux pstmt f ts'
          .ok (s :: body, ts'')
        | none => blockBodyAux pstmt f ts'.advance

/-- `Parser::parse_block`. -/
def parseBlockF (pstmt : PStmt) (ts : TokenStream) :
    Except Fatal (Option Statement × TokenStream) := do
  let ts1 ← ts.expect .LeftBrace
  let (body, ts2) ← blockBodyAux pstmt (ts1.rem + 1) ts1
  let ts3 ← ts2.expect .RightBrace
  .ok (some (.Block body), ts3)

/-- `Parser::parse_macro`. -/
def parseMacroF (pstmt : PStmt) (ts : TokenStream) :
    Except Fatal (Option Statement × TokenStream) := do
  let ts1 ← ts.expect .MacroRules
  match ts1.next with
  | (none, ts') => .ok (none, ts')
  | (some t, ts') =>
    match t.kind with
    | .Ident name => do
      let ts2 ← ts'.expect .LeftParen
      match ← paramList ts2 with
      | (none, ts3) => .ok (none, ts3)
      | (some params, ts3) =>
        match ← parseBlockF pstmt ts3 with
        | (some (.Block body), ts4) => .ok (some (.MacroDef name params body), ts4)
        | (some _, _) => .error .expectedBlockInDef
        | (none, ts4) => .ok (none, ts4)
    | k => .error (.expectedName k)

/-- `Parser::parse_for_loop`: the fixed three-clause header, with the
loop variable of the initializer asserted verbatim (via
`expect(Ident(var))`) in the condition and increment clauses. -/
def parseForLoopF (pstmt : PStmt) (ts : TokenStream) :
    Except Fatal (Option Statement × TokenStream) := do
  let ts1 ← ts.expect .ForBang
  let ts2 ← ts1.expect .LeftParen
  let ts3 ← ts2.expect .Var
  match ts3.next with
  | (none, ts') => .ok (none, ts')
  | (some t, ts') =>
    match t.kind with
    | .Ident v => do
      let ts4 ← ts'.expect .Equal
      match ts4.next with
      | (none, ts5) => .ok (none, ts5)
      | (some t2, ts5) =>
        match t2.kind with
        | .IntLit lo => do
          let ts6 ← ts5.expect .Semicolon
          let ts7 ← ts6.expect (.Ident v)
          let ts8 ← ts7.expect .Less
          match ts8.next with
          | (none, ts9) => .ok (none, ts9)
          | (some t3, ts9) =>
            match t3.kind with
            | .IntLit hi => do
              let ts10 ← ts9.expect .Semicolon
              let ts11 ← ts10.expect (.Ident v)
              let ts12 ← ts11.expect .PlusPlus
              let ts13 ← ts12.expect .RightParen
              match ← parseBlockF pstmt ts13 with
              | (some (.Block body), ts14) => .ok (some (.ForLoop v lo hi body), ts14)
              | (some _, _) => .error .expectedBlockInForLoop
              | (none, ts14) => .ok (none, ts14)
            | _ => .error .expectedIntInForEnd
        | _ => .error .expectedIntInForStart
    | _ => .error .expectedLoopVarName

/-- `Parser::parse_statement`: dispatch on the kind at the cursor, in the
arm order of the source; the catch-all arm consumes one token and
reports no statement.  The fuel bounds the nesting depth of blocks. -/
def parseStatement : Nat → TokenStream → Except Fatal (Option Statement × TokenStream)
  | 0, _ => .error .outOfFuel
  | f + 1, ts =>
    match ts.peek with
    | none => .ok (none, ts)
    | some tok =>
      match tok.kind with
      | .Var => parseVar ts
      | .Const => parseConst ts
      | .Ident _ =>
        if lookaheadIsLabel ts then parseLabel ts else parseInstruction ts
      | .AtDirective => parseDirective ts
      | .Include => parseInclude ts
      | .MacroRules => parseMacroF (parseStatement f) ts
      | .ForBang => parseForLoopF (parseStatement f) ts
      | .LeftBrace => parseBlockF (parseStatement f) ts
      | _ => .ok (none, ts.advance)

/-- The loop of `Parser::parse`: while not at the end, try a statement;
on no match skip one further token. -/
def parseTopAux (pstmt : PStmt) : Nat → TokenStream → Except Fatal (List Statement × TokenStream)
  | 0, _ => .error .outOfFuel
  | f + 1, ts =>
    if ts.eof then .ok ([], ts)
    else do
      let (r, ts') ← pstmt ts
      match r with
      | some s => do
        let (rest, ts'') ← parseTopAux pstmt f ts'
        .ok (s :: rest, ts'')
      | none => parseTopAux pstmt f ts'.advance

/-- The statement parser at its natural fuel (`remaining + 1`, proved
sufficient below). -/
def pstmtTop : PStmt := fun ts => parseStatement (ts.rem + 1) ts

/-- `Parser::parse` on an existing stream. -/
def parserParse (ts : TokenStream) : Except Fatal (List Statement) :=
  (parseTopAux pstmtTop (ts.rem + 1) ts).map Prod.fst

/-- `Parser::new` + `Parser::parse`: the whole pipeline on a source
text. -/
def parseProgram (input : String) : Except Fatal (List Statement) := do
  let ts ← TokenStream.new input
  parserParse ts

/-- The escape table of `parse_string` in tokens.rs: a known escape
becomes its character, an unknown escape becomes the escaped character
itself. -/
def decodeEscChar : Char → Char
  | 'n' => '\n'
  | 'r' => '\r'
  | 't' => '\t'
  | '0' => '\x00'
  | '\'' => '\''
  | '"' => '"'
  | '\\' => '\\'
  | v => v

/-- The character loop of `parse_string`: a backslash decodes the next
character via the escape table (`None => break` at a trailing lone
backslash), anything else is pushed verbatim. -/
def decodeStrChars : List Char → List Char
  | [] => []
  | c :: rest =>
    if c = '\\' then
      match rest with
      | [] => []
      | e :: rest' => decodeEscChar e :: decodeStrChars rest'
    else c :: decodeStrChars rest

/-- `parse_string` of tokens.rs on the full lexeme (quotes included). -/
def parse_string (s : String) : String :=
  String.mk (decodeStrChars ((s.toList.drop 1).dropLast))

/-- Result well-formedness used by the termination development: the
token buffer is unchanged, the cursor never moves backwards, and it
strictly advances whenever tokens remained at the call. -/
def StepsForward (ts ts' : TokenStream) : Prop :=
  ts'.tokens = ts.tokens ∧ ts.pos ≤ ts'.pos ∧
    (ts.pos < ts.tokens.length → ts.pos + 1 ≤ ts'.pos)

/-- A statement parser all of whose successful results step forward. -/
def ParserOk (p : PStmt) : Prop :=
  ∀ ts r ts', p ts = .ok (r, ts') → StepsForward ts ts'

/-! ## Spec-side definitions

These follow the words of the specification (not the source); they are
used to state amended claims and refinement-style comparisons. -/

/-- The statement-starting token kinds of the dispatch table in the
specification (section 4.2): everything with a dedicated arm in
`parse_statement`; any other kind is the "no statement recognized"
case. -/
def startsStmt : TokenKind → Bool
  | .Var => true
  | .Const => true
  | .Ident _ => true
  | .AtDirective => true
  | .Include => true
  | .MacroRules => true
  | .ForBang => true
  | .LeftBrace => true
  | _ => false

/-- The inverse escape map of the specification (section 8): the seven
supported escapes re-encoded, all other characters kept verbatim. -/
def encodeEsc (c : Char) : List Char :=
  if c = '\n' then ['\\', 'n']
  else if c = '\t' then ['\\', 't']
  else if c = '\r' then ['\\', 'r']
  else if c = '\x00' then ['\\', '0']
  else if c = '\'' then ['\\', '\'']
  else if c = '"' then ['\\', '"']
  else if c = '\\' then ['\\', '\\']
  else [c]

/-- Re-encode a decoded string with the inverse escape map. -/
def encodeEscapes : List Char → List Char
  | [] => []
  | c :: l => encodeEsc c ++ encodeEscapes l

/-! ## Reduction helpers for the `Except` monad -/

@[simp] theorem ok_bind {α β : Type} (a : α) (f : α → Except Fatal β) :
    (Except.ok a : Except Fatal α) >>= f = f a := rfl

@[simp] theorem error_bind {α β : Type} (e : Fatal) (f : α → Except Fatal β) :
    (Except.error e : Except Fatal α) >>= f = .error e := rfl

/-! ## C1: the three label forms -/

/-- C1.  The claim says `label:`, `.local:` and `::global:` each parse to
exactly one Label statement.  Evaluating the parser shows the plain form
works but the dot and double-colon forms produce no statement at all:
the leading `Dot` / `DoubleColon` token falls into the catch-all arm of
`parse_statement` (which consumes it and reports no statement), after
which the recovery branch of the `parse` loop discards the following
identifier as well, so the `name :` suffix never reaches the label rule.
The comments in tokens.rs (the `Dot` token exists for labels like
`.foo:`, `DoubleColon` is the prefix for `::global:`) and the dedicated
dot/double-colon patterns inside `lookahead_is_label` (unreachable,
since the lookahead is consulted only when the cursor holds an
identifier, and `::` lexes as one `DoubleColon` token rather than the
two `Colon` tokens the pattern tests) show the claim matches the intent
and the code drops the two prefixed forms. -/
theorem c1_label_forms :
    parseProgram "label:" = .ok [.Label "label"] ∧
    parseProgram ".local:" = .ok [] ∧
    parseProgram "::global:" = .ok [] :=
  ⟨rfl, rfl, rfl⟩

/-! ## C2: lenient skip of unrecognized tokens -/

/-- C2, counterexample.  The claim says an unrecognized token position
discards exactly one token so that the following statement is still
produced.  A comma before `var x = 5` refutes it: the catch-all arm of
`parse_statement` consumes the comma, and the recovery branch of the
`parse` loop then discards the `var` keyword too, so the parser produces
a bare Instruction `x` instead of the VarAssign. -/
theorem c2_single_skip_cex :
    parseProgram ", var x = 5" = .ok [.Instruction "x" []] ∧
    parseProgram ", var x = 5" ≠ .ok [.VarAssign "x" 5] := by
  have h : parseProgram ", var x = 5" = .ok [.Instruction "x" []] := rfl
  exact ⟨h, by rw [h]; simp⟩

/-- C2, amended.  At a position whose token kind starts no statement,
the dispatcher consumes that token and reports no statement, and the
driver loop then discards the next token as well — two tokens are
discarded per unrecognized position, not one.  The concrete example of
the claim still holds, because `$` matches no lexer rule at all and is
filtered out by `TokenStream::new` before parsing, leaving `var x = 5`
as the whole token sequence. -/
theorem c2_lenient_skip_amended :
    parseProgram "$ var x = 5" = .ok [.VarAssign "x" 5] ∧
    (∀ (f : Nat) (ts : TokenStream) (tok : Token),
      ts.peek = some tok → startsStmt tok.kind = false →
      parseStatement (f + 1) ts = .ok (none, ts.advance)) ∧
    (∀ (pstmt : PStmt) (f : Nat) (ts ts' : TokenStream),
      ts.eof = false → pstmt ts = .ok (none, ts') →
      parseTopAux pstmt (f + 1) ts = parseTopAux pstmt f ts'.advance) := by
  refine ⟨rfl, ?_, ?_⟩
  · intro f ts tok hpeek hns
    simp only [parseStatement, hpeek]
    cases h : tok.kind <;> simp_all [startsStmt]
  · intro pstmt f ts ts' heof hp
    simp only [parseTopAux, heof, Bool.false_eq_true, if_false, hp]
    rfl

/-- Witness for `c2_lenient_skip_amended`: instantiated at a stream
holding a single comma token and at the statement parser itself. -/
theorem c2_lenient_skip_amended_witness :
    parseStatement 1 ⟨[⟨.Comma, ","⟩], 0⟩ = .ok (none, ⟨[⟨.Comma, ","⟩], 1⟩) ∧
    parseTopAux pstmtTop 2 ⟨[⟨.Comma, ","⟩], 0⟩
      = parseTopAux pstmtTop 1 (TokenStream.advance ⟨[⟨.Comma, ","⟩], 1⟩) := by
  have h1 : parseStatement 1 ⟨[⟨.Comma, ","⟩], 0⟩ = .ok (none, ⟨[⟨.Comma, ","⟩], 1⟩) :=
    c2_lenient_skip_amended.2.1 0 ⟨[⟨.Comma, ","⟩], 0⟩ ⟨.Comma, ","⟩ rfl rfl
  have h2 := c2_lenient_skip_amended.2.2 pstmtTop 1 ⟨[⟨.Comma, ","⟩], 0⟩
    ⟨[⟨.Comma, ","⟩], 1⟩ rfl (by rfl)
  exact ⟨h1, h2⟩

/-! ## C3: end of input inside a committed construct -/

/-- C3, counterexample.  The claim says exhausting the tokens after a
construct keyword has been consumed always fails the whole pass fatally
with no partial AST.  Input `var x = 5 var` refutes it: the trailing
`var` is consumed, the `next()?` for its name observes the end and makes
`parse_var` report no statement, the driver recovers, and the pass
returns the earlier VarAssign — a partial result, no fatal error. -/
theorem c3_eof_fatal_cex :
    parseProgram "var x = 5 var" = .ok [.VarAssign "x" 5] ∧
    parseProgram "var x = 5 var" ≠ .error .unexpectedEof := by
  have h : parseProgram "var x = 5 var" = .ok [.VarAssign "x" 5] := rfl
  exact ⟨h, by rw [h]; simp⟩

/-- C3, amended.  Exhaustion mid-construct is fatal (the
`Unexpected EOF` panic of `TokenStream::expect`) exactly at the
assert-a-specific-kind points; at the plain `next()?` points (the name
after `var`/`const`, the value after `=`, the macro name, the loop
bounds, the token after the parameter list) it instead makes the
construct parser report no statement, and the pass returns what was
parsed before.  `var x` dies fatally (the `=` is asserted at the end),
while `var x = 5 var` returns the first statement. -/
theorem c3_eof_amended :
    parseProgram "var x" = .error .unexpectedEof ∧
    parseProgram "var x = 5 var" = .ok [.VarAssign "x" 5] ∧
    (∀ (ts : TokenStream) (k : TokenKind),
      ts.peek = none → ts.expect k = .error .unexpectedEof) := by
  refine ⟨rfl, rfl, ?_⟩
  intro ts k hpeek
  simp only [TokenStream.expect, TokenStream.next, TokenStream.peek] at *
  rw [hpeek]

/-- Witness for `c3_eof_amended`: the empty stream, expecting `=`. -/
theorem c3_eof_amended_witness :
    TokenStream.expect ⟨[], 0⟩ .Equal = .error .unexpectedEof :=
  c3_eof_amended.2.2 ⟨[], 0⟩ .Equal rfl

/-! ## C4: numeric literal radices -/

/-- C4, counterexample.  The claim admits `0X` (and `0B`, `0O`) prefixes,
but the lexer regexes of tokens.rs accept lowercase prefixes only
(`0x[0-9A-Fa-f]+` …); `0XFF` therefore lexes as the decimal literal `0`
followed by the identifier `XFF`, not as a single token of value 255.
(The uppercase-aware helper `parse_content` in tokens.rs is never
called.) -/
theorem c4_radix_cex :
    tokenize "0XFF" = .ok [⟨.IntLit 0, "0"⟩, ⟨.Ident "XFF", "XFF"⟩] ∧
    tokenize "0XFF" ≠ .ok [⟨.HexLit 255, "0XFF"⟩] := by
  have h : tokenize "0XFF" = .ok [⟨.IntLit 0, "0"⟩, ⟨.Ident "XFF", "XFF"⟩] := rfl
  exact ⟨h, by rw [h]; simp⟩

/-! ## C4 amended: lowercase radix prefixes, exact values -/

/-- A decimal digit is not lexer whitespace. -/
theorem not_ws_of_digit (c : Char) (h : c.isDigit = true) : isWs c = false := by
  simp only [isWs, Bool.or_eq_false_iff, beq_eq_false_iff_ne, ne_eq]
  refine ⟨⟨⟨?_, ?_⟩, ?_⟩, ?_⟩ <;> rintro rfl <;> exact absurd h (by decide)

/-- A decimal digit starts no identifier. -/
theorem not_identStart_of_digit (c : Char) (h : c.isDigit = true) :
    isIdentStart c = false := by
  have h' : 48 ≤ c.val ∧ c.val ≤ 57 := by
    simpa [Char.isDigit, Bool.and_eq_true, decide_eq_true_eq] using h
  simp only [isIdentStart, Char.isAlpha, Char.isUpper, Char.isLower,
    Bool.or_eq_false_iff, beq_eq_false_iff_ne, ne_eq]
  refine ⟨⟨?_, ?_⟩, ?_⟩
  · simp only [Bool.and_eq_false_iff, decide_eq_false_iff_not, ge_iff_le]
    left
    intro hc
    exact absurd (UInt32.le_trans hc h'.2) (by decide)
  · simp only [Bool.and_eq_false_iff, decide_eq_false_iff_not, ge_iff_le]
    left
    intro hc
    exact absurd (UInt32.le_trans hc h'.2) (by decide)
  · rintro rfl
    exact absurd h (by decide)

/-- On a pure decimal-digit input the radix dispatch of `lexNum` falls
through to the decimal rule (no lowercase `0x`/`0b`/`0o` prefix can be
present). -/
theorem lexNum_dec (cs : List Char) (h : ∀ c ∈ cs, c.isDigit = true) :
    lexNum cs = lexDec cs := by
  rw [lexNum.eq_def]
  split
  · exact absurd (h 'x' (by simp_all)) (by decide)
  · exact absurd (h 'b' (by simp_all)) (by decide)
  · exact absurd (h 'o' (by simp_all)) (by decide)
  · rfl

/-- The lexer loop on the empty input. -/
theorem lexLoop_nil (f : Nat) : lexLoop f [] = .ok [] := by
  cases f <;> rfl

/-- An input whose first step consumes everything lexes to exactly that
one token. -/
theorem tokenize_single (cs : List Char) (tok : Token)
    (hstep : lexStep cs = .ok (some tok, cs.length)) (hne : cs ≠ []) :
    tokenize (String.mk cs) = .ok [tok] := by
  cases cs with
  | nil => simp at hne
  | cons c cs' =>
    show lexLoop (c :: cs').length (c :: cs') = .ok [tok]
    have hlen : (c :: cs').length = cs'.length + 1 := by simp
    rw [hlen]
    simp only [lexLoop, hstep, hlen, ok_bind]
    have hmax : max (cs'.length + 1) 1 = cs'.length + 1 := Nat.max_eq_left (by omega)
    rw [hmax, show cs'.length + 1 = (c :: cs').length from by simp, List.drop_length,
      lexLoop_nil]
    rfl

/-- One lexer step on a lowercase-`0x` hexadecimal literal. -/
theorem lexStep_hex (d : Char) (ds : List Char) (hd : isHexDigitC d = true)
    (hds : ∀ c ∈ ds, isHexDigitC c = true)
    (hbound : radixVal 16 (d :: ds) ≤ i64Max) :
    lexStep ('0' :: 'x' :: d :: ds)
      = .ok (some ⟨.HexLit (Int.ofNat (radixVal 16 (d :: ds))),
                   String.mk ('0' :: 'x' :: d :: ds)⟩,
             ('0' :: 'x' :: d :: ds).length) := by
  have h1 : lexStep ('0' :: 'x' :: d :: ds) = lexNum ('0' :: 'x' :: d :: ds) := rfl
  have h2 : lexNum ('0' :: 'x' :: d :: ds)
      = if isHexDigitC d then
          numToken TokenKind.HexLit 16 ('0' :: 'x' :: d :: ds.takeWhile isHexDigitC)
            (d :: ds.takeWhile isHexDigitC)
        else lexDec ('0' :: 'x' :: d :: ds) := rfl
  rw [h1, h2, if_pos hd, List.takeWhile_eq_self_iff.mpr hds]
  simp only [numToken]
  rw [if_pos hbound]

/-- One lexer step on a lowercase-`0b` binary literal. -/
theorem lexStep_bin (d : Char) (ds : List Char) (hd : isBinDigitC d = true)
    (hds : ∀ c ∈ ds, isBinDigitC c = true)
    (hbound : radixVal 2 (d :: ds) ≤ i64Max) :
    lexStep ('0' :: 'b' :: d :: ds)
      = .ok (some ⟨.BinLit (Int.ofNat (radixVal 2 (d :: ds))),
                   String.mk ('0' :: 'b' :: d :: ds)⟩,
             ('0' :: 'b' :: d :: ds).length) := by
  have h1 : lexStep ('0' :: 'b' :: d :: ds) = lexNum ('0' :: 'b' :: d :: ds) := rfl
  have h2 : lexNum ('0' :: 'b' :: d :: ds)
      = if isBinDigitC d then
          numToken TokenKind.BinLit 2 ('0' :: 'b' :: d :: ds.takeWhile isBinDigitC)
            (d :: ds.takeWhile isBinDigitC)
        else lexDec ('0' :: 'b' :: d :: ds) := rfl
  rw [h1, h2, if_pos hd, List.takeWhile_eq_self_iff.mpr hds]
  simp only [numToken]
  rw [if_pos hbound]

/-- One lexer step on a lowercase-`0o` octal literal. -/
theorem lexStep_oct (d : Char) (ds : List Char) (hd : isOctDigitC d = true)
    (hds : ∀ c ∈ ds, isOctDigitC c = true)
    (hbound : radixVal 8 (d :: ds) ≤ i64Max) :
    lexStep ('0' :: 'o' :: d :: ds)
      = .ok (some ⟨.OctLit (Int.ofNat (radixVal 8 (d :: ds))),
                   String.mk ('0' :: 'o' :: d :: ds)⟩,
             ('0' :: 'o' :: d :: ds).length) := by
  have h1 : lexStep ('0' :: 'o' :: d :: ds) = lexNum ('0' :: 'o' :: d :: ds) := rfl
  have h2 : lexNum ('0' :: 'o' :: d :: ds)
      = if isOctDigitC d then
          numToken TokenKind.OctLit 8 ('0' :: 'o' :: d :: ds.takeWhile isOctDigitC)
            (d :: ds.takeWhile isOctDigitC)
        else lexDec ('0' :: 'o' :: d :: ds) := rfl
  rw [h1, h2, if_pos hd, List.takeWhile_eq_self_iff.mpr hds]
  simp only [numToken]
  rw [if_pos hbound]

/-- One lexer step on a plain decimal literal. -/
theorem lexStep_dec (d : Char) (ds : List Char)
    (h : ∀ c ∈ d :: ds, c.isDigit = true)
    (hbound : radixVal 10 (d :: ds) ≤ i64Max) :
    lexStep (d :: ds)
      = .ok (some ⟨.IntLit (Int.ofNat (radixVal 10 (d :: ds))), String.mk (d :: ds)⟩,
             (d :: ds).length) := by
  have hd := h d (by simp)
  have h1 : lexStep (d :: ds) = lexStepCons d ds := rfl
  rw [h1]
  unfold lexStepCons
  rw [if_neg (by simp [not_ws_of_digit d hd]),
    if_neg (by simp [not_identStart_of_digit d hd]), if_pos hd,
    lexNum_dec (d :: ds) h]
  simp only [lexDec]
  rw [List.takeWhile_eq_self_iff.mpr h]
  simp only [numToken]
  rw [if_pos hbound]

/-- C4, amended.  The lexer accepts exactly the lowercase radix prefixes
`0x` (hex), `0b` (binary), `0o` (octal), and plain decimal digit runs;
for every such literal whose value fits in `i64` it produces one token
carrying the value of the digits in that radix, and the four examples of
the claim evaluate as stated. -/
theorem c4_radix_values :
    (∀ (d : Char) (ds : List Char), isHexDigitC d = true →
      (∀ c ∈ ds, isHexDigitC c = true) → radixVal 16 (d :: ds) ≤ i64Max →
      tokenize (String.mk ('0' :: 'x' :: d :: ds))
        = .ok [⟨.HexLit (Int.ofNat (radixVal 16 (d :: ds))),
                String.mk ('0' :: 'x' :: d :: ds)⟩]) ∧
    (∀ (d : Char) (ds : List Char), isBinDigitC d = true →
      (∀ c ∈ ds, isBinDigitC c = true) → radixVal 2 (d :: ds) ≤ i64Max →
      tokenize (String.mk ('0' :: 'b' :: d :: ds))
        = .ok [⟨.BinLit (Int.ofNat (radixVal 2 (d :: ds))),
                String.mk ('0' :: 'b' :: d :: ds)⟩]) ∧
    (∀ (d : Char) (ds : List Char), isOctDigitC d = true →
      (∀ c ∈ ds, isOctDigitC c = true) → radixVal 8 (d :: ds) ≤ i64Max →
      tokenize (String.mk ('0' :: 'o' :: d :: ds))
        = .ok [⟨.OctLit (Int.ofNat (radixVal 8 (d :: ds))),
                String.mk ('0' :: 'o' :: d :: ds)⟩]) ∧
    (∀ (d : Char) (ds : List Char), (∀ c ∈ d :: ds, c.isDigit = true) →
      radixVal 10 (d :: ds) ≤ i64Max →
      tokenize (String.mk (d :: ds))
        = .ok [⟨.IntLit (Int.ofNat (radixVal 10 (d :: ds))), String.mk (d :: ds)⟩]) ∧
    tokenize "0xFF" = .ok [⟨.HexLit 255, "0xFF"⟩] ∧
    tokenize "0b1011" = .ok [⟨.BinLit 11, "0b1011"⟩] ∧
    tokenize "0o77" = .ok [⟨.OctLit 63, "0o77"⟩] ∧
    tokenize "1234" = .ok [⟨.IntLit 1234, "1234"⟩] := by
  refine ⟨?_, ?_, ?_, ?_, rfl, rfl, rfl, rfl⟩
  · intro d ds hd hds hbound
    exact tokenize_single _ _ (lexStep_hex d ds hd hds hbound) (by simp)
  · intro d ds hd hds hbound
    exact tokenize_single _ _ (lexStep_bin d ds hd hds hbound) (by simp)
  · intro d ds hd hds hbound
    exact tokenize_single _ _ (lexStep_oct d ds hd hds hbound) (by simp)
  · intro d ds h hbound
    exact tokenize_single _ _ (lexStep_dec d ds h hbound) (by simp)

/-- Witness for `c4_radix_values`: one literal of each radix. -/
theorem c4_radix_values_witness :
    tokenize (String.mk ['0', 'x', 'F', 'F']) = .ok [⟨.HexLit 255, String.mk ['0', 'x', 'F', 'F']⟩] ∧
    tokenize (String.mk ['0', 'b', '1', '1']) = .ok [⟨.BinLit 3, String.mk ['0', 'b', '1', '1']⟩] ∧
    tokenize (String.mk ['0', 'o', '7', '7']) = .ok [⟨.OctLit 63, String.mk ['0', 'o', '7', '7']⟩] ∧
    tokenize (String.mk ['4', '2']) = .ok [⟨.IntLit 42, String.mk ['4', '2']⟩] := by
  refine ⟨?_, ?_, ?_, ?_⟩
  · exact c4_radix_values.1 'F' ['F'] (by decide) (by decide) (by decide)
  · exact c4_radix_values.2.1 '1' ['1'] (by decide) (by decide) (by decide)
  · exact c4_radix_values.2.2.1 '7' ['7'] (by decide) (by decide) (by decide)
  · exact c4_radix_values.2.2.2.1 '4' ['2'] (by decide) (by decide)

/-! ## C5: mismatched loop variable is fatal -/

/-- C5.  Once the for-loop header is committed, the condition clause and
the increment clause must repeat the exact loop-variable identifier
bound by the initializer: `expect(Ident(var))` fails hard on any other
name (first two conjuncts, for any continuation of the token stream and
any statement parser), and the concrete input of the claim aborts the
whole pass with that error — it never becomes a ForLoop node. -/
theorem c5_forloop_mismatch :
    (∀ (pstmt : PStmt) (v w tv tw tl : String) (lo : Int) (rest : List Token),
      w ≠ v →
      parseForLoopF pstmt
        ⟨⟨.ForBang, "for!"⟩ :: ⟨.LeftParen, "("⟩ :: ⟨.Var, "var"⟩ :: ⟨.Ident v, tv⟩ ::
          ⟨.Equal, "="⟩ :: ⟨.IntLit lo, tl⟩ :: ⟨.Semicolon, ";"⟩ :: ⟨.Ident w, tw⟩ :: rest, 0⟩
        = .error (.expected (.Ident v) (.Ident w))) ∧
    (∀ (pstmt : PStmt) (v w tv tv2 tw tl th : String) (lo hi : Int) (rest : List Token),
      w ≠ v →
      parseForLoopF pstmt
        ⟨⟨.ForBang, "for!"⟩ :: ⟨.LeftParen, "("⟩ :: ⟨.Var, "var"⟩ :: ⟨.Ident v, tv⟩ ::
          ⟨.Equal, "="⟩ :: ⟨.IntLit lo, tl⟩ :: ⟨.Semicolon, ";"⟩ :: ⟨.Ident v, tv2⟩ ::
          ⟨.Less, "<"⟩ :: ⟨.IntLit hi, th⟩ :: ⟨.Semicolon, ";"⟩ :: ⟨.Ident w, tw⟩ :: rest, 0⟩
        = .error (.expected (.Ident v) (.Ident w))) ∧
    parseProgram "for!(var i = 0; j < 4; i++) { }"
      = .error (.expected (.Ident "i") (.Ident "j")) := by
  refine ⟨?_, ?_, rfl⟩
  · intro pstmt v w tv tw tl lo rest h
    simp [parseForLoopF, TokenStream.expect, TokenStream.next, h]
  · intro pstmt v w tv tv2 tw tl th lo hi rest h
    simp [parseForLoopF, TokenStream.expect, TokenStream.next, h]

/-- Witness for `c5_forloop_mismatch`: the header of the claim,
`for!(var i = 0; j < 4; i++)`, on both mismatch positions. -/
theorem c5_forloop_mismatch_witness :
    parseForLoopF pstmtTop
      ⟨[⟨.ForBang, "for!"⟩, ⟨.LeftParen, "("⟩, ⟨.Var, "var"⟩, ⟨.Ident "i", "i"⟩,
        ⟨.Equal, "="⟩, ⟨.IntLit 0, "0"⟩, ⟨.Semicolon, ";"⟩, ⟨.Ident "j", "j"⟩], 0⟩
      = .error (.expected (.Ident "i") (.Ident "j")) ∧
    parseForLoopF pstmtTop
      ⟨[⟨.ForBang, "for!"⟩, ⟨.LeftParen, "("⟩, ⟨.Var, "var"⟩, ⟨.Ident "i", "i"⟩,
        ⟨.Equal, "="⟩, ⟨.IntLit 0, "0"⟩, ⟨.Semicolon, ";"⟩, ⟨.Ident "i", "i"⟩,
        ⟨.Less, "<"⟩, ⟨.IntLit 4, "4"⟩, ⟨.Semicolon, ";"⟩, ⟨.Ident "j", "j"⟩], 0⟩
      = .error (.expected (.Ident "i") (.Ident "j")) :=
  ⟨c5_forloop_mismatch.1 pstmtTop "i" "j" "i" "j" "0" 0 [] (by decide),
   c5_forloop_mismatch.2.1 pstmtTop "i" "j" "i" "i" "j" "0" "4" 0 4 [] (by decide)⟩

/-! ## C6: label lookahead is pure read-ahead -/

/-- C6.  The lookahead consults the token buffer at fixed offsets from
the cursor and returns a Bool; in the embedding this purity is
definitional, and the dispatch consequence holds: whenever the cursor
holds an identifier and the lookahead reports no label pattern, the
statement parser equals the instruction parser applied to the very same
stream (same cursor, nothing consumed).  On the concrete input `R1 R2`
(two identifiers, no colon) the pass yields exactly one Instruction
with mnemonic `R1` and argument `R2`, and no Label. -/
theorem c6_lookahead_pure :
    parseProgram "R1 R2" = .ok [.Instruction "R1" ["R2"]] ∧
    (∀ (f : Nat) (ts : TokenStream) (tok : Token) (s : String),
      ts.peek = some tok → tok.kind = .Ident s → lookaheadIsLabel ts = false →
      parseStatement (f + 1) ts = parseInstruction ts) := by
  refine ⟨rfl, ?_⟩
  intro f ts tok s hpeek hkind hla
  simp only [parseStatement, hpeek, hkind, hla]
  simp

/-- Witness for `c6_lookahead_pure`: the token stream of `R1 R2`. -/
theorem c6_lookahead_pure_witness :
    parseStatement 1 ⟨[⟨.Ident "R1", "R1"⟩, ⟨.Ident "R2", "R2"⟩], 0⟩
      = parseInstruction ⟨[⟨.Ident "R1", "R1"⟩, ⟨.Ident "R2", "R2"⟩], 0⟩ :=
  c6_lookahead_pure.2 0 ⟨[⟨.Ident "R1", "R1"⟩, ⟨.Ident "R2", "R2"⟩], 0⟩
    ⟨.Ident "R1", "R1"⟩ "R1" rfl rfl rfl

/-! ## C7: the instruction argument run -/

/-- Indexing equals taking the head of the dropped suffix. -/
theorem getElem?_eq_drop_head? {α : Type} (l : List α) (n : Nat) :
    l[n]? = (l.drop n).head? := by
  induction l generalizing n with
  | nil => simp
  | cons a l ih =>
    cases n with
    | zero => simp
    | succ n => simp only [List.getElem?_cons_succ, List.drop_succ_cons]; exact ih n

/-- The argument loop consumes exactly the maximal leading run of
argument-kind tokens: given that the suffix at the cursor splits into a
run of argument tokens followed by a stopping token (or nothing), the
loop returns their renderings in source order and leaves the cursor on
the stopping token. -/
theorem instrArgsAux_spec (run : List Token) :
    ∀ (fuel : Nat) (ts : TokenStream) (rest : List Token),
      ts.tokens.drop ts.pos = run ++ rest →
      (∀ t ∈ run, (renderInstrArg t.kind).isSome) →
      (∀ t ∈ rest.head?, renderInstrArg t.kind = none) →
      run.length ≤ fuel →
      instrArgsAux fuel ts
        = (run.filterMap (fun t => renderInstrArg t.kind), ⟨ts.tokens, ts.pos + run.length⟩) := by
  induction run with
  | nil =>
    intro fuel ts rest hdrop _ hstop _
    have hpeek : ts.peek = rest.head? := by
      rw [TokenStream.peek, getElem?_eq_drop_head?, hdrop]; rfl
    cases fuel with
    | zero => simp [instrArgsAux]
    | succ f =>
      cases hr : rest with
      | nil => simp [instrArgsAux, hpeek, hr]
      | cons t r =>
        have hnone : renderInstrArg t.kind = none := by
          apply hstop; rw [hr]; rfl
        simp [instrArgsAux, hpeek, hr, hnone]
  | cons t run ih =>
    intro fuel ts rest hdrop hrun hstop hlen
    cases fuel with
    | zero => simp at hlen
    | succ f =>
      have hlen' : run.length ≤ f := by
        simp only [List.length_cons] at hlen; omega
      have hpeek : ts.peek = some t := by
        rw [TokenStream.peek, getElem?_eq_drop_head?, hdrop]; rfl
      obtain ⟨s, hs⟩ := Option.isSome_iff_exists.mp (hrun t (by simp))
      have hadv : ts.advance = ⟨ts.tokens, ts.pos + 1⟩ := by
        rw [TokenStream.advance, TokenStream.next]
        rw [TokenStream.peek] at hpeek
        rw [hpeek]
      have hdrop' : ts.tokens.drop (ts.pos + 1) = run ++ rest := by
        rw [← List.tail_drop, hdrop]; rfl
      have hih := ih f ⟨ts.tokens, ts.pos + 1⟩ rest hdrop'
        (fun u hu => hrun u (by simp [hu])) hstop hlen'
      simp only [instrArgsAux, hpeek, hs, hadv, hih, List.filterMap_cons,
        List.length_cons]
      have harith : ts.pos + 1 + run.length = ts.pos + (run.length + 1) := by omega
      rw [harith]

/-- C7.  A statement beginning with an identifier that the lookahead
does not classify as a label is parsed as an instruction: the identifier
becomes the mnemonic, the maximal following run of identifier, integer-
literal, string-literal and character-literal tokens becomes the
argument list (identifier text verbatim, integers in decimal, raw
string lexemes, single characters), in source order, and the cursor
stops on the first token of any other kind. -/
theorem c7_instruction_args (f : Nat) (name ntext : String) (run rest : List Token)
    (hla : lookaheadIsLabel ⟨⟨.Ident name, ntext⟩ :: (run ++ rest), 0⟩ = false)
    (hrun : ∀ t ∈ run, (renderInstrArg t.kind).isSome)
    (hstop : ∀ t ∈ rest.head?, renderInstrArg t.kind = none) :
    parseStatement (f + 1) ⟨⟨.Ident name, ntext⟩ :: (run ++ rest), 0⟩
      = .ok (some (.Instruction name (run.filterMap fun t => renderInstrArg t.kind)),
             ⟨⟨.Ident name, ntext⟩ :: (run ++ rest), 1 + run.length⟩) := by
  rw [c6_lookahead_pure.2 f ⟨⟨.Ident name, ntext⟩ :: (run ++ rest), 0⟩
    ⟨.Ident name, ntext⟩ name (by simp [TokenStream.peek]) rfl hla]
  have hspec := instrArgsAux_spec run (run.length + rest.length)
    ⟨⟨.Ident name, ntext⟩ :: (run ++ rest), 1⟩ rest rfl hrun hstop (by omega)
  have hrem : (TokenStream.rem ⟨⟨.Ident name, ntext⟩ :: (run ++ rest), 1⟩)
      = run.length + rest.length := by
    simp [TokenStream.rem]
  simp only [parseInstruction, TokenStream.next, List.getElem?_cons_zero, instrArgs,
    hrem, hspec]

/-- Witness for `c7_instruction_args`: mnemonic `mov` with one argument
of each kind, stopped by a comma. -/
theorem c7_instruction_args_witness :
    parseStatement 1
      ⟨[⟨.Ident "mov", "mov"⟩, ⟨.Ident "R1", "R1"⟩, ⟨.IntLit 5, "5"⟩,
        ⟨.StrLit "\"hi\"", "\"hi\""⟩, ⟨.CharLit 'c', "'c'"⟩, ⟨.Comma, ","⟩], 0⟩
      = .ok (some (.Instruction "mov" ["R1", "5", "\"hi\"", "c"]),
             ⟨[⟨.Ident "mov", "mov"⟩, ⟨.Ident "R1", "R1"⟩, ⟨.IntLit 5, "5"⟩,
               ⟨.StrLit "\"hi\"", "\"hi\""⟩, ⟨.CharLit 'c', "'c'"⟩, ⟨.Comma, ","⟩], 5⟩) := by
  have h := c7_instruction_args 0 "mov" "mov"
    [⟨.Ident "R1", "R1"⟩, ⟨.IntLit 5, "5"⟩, ⟨.StrLit "\"hi\"", "\"hi\""⟩, ⟨.CharLit 'c', "'c'"⟩]
    [⟨.Comma, ","⟩] (by decide) (by decide) (by decide)
  exact h

/-! ## C8: string-escape decoding round-trip -/

/-- Unfolding of the decode loop at a plain character. -/
theorem decodeStrChars_cons (c : Char) (rest : List Char) (h : ¬ c = '\\') :
    decodeStrChars (c :: rest) = c :: decodeStrChars rest := by
  cases rest with
  | nil => rw [decodeStrChars.eq_2, if_neg h]
  | cons e r => rw [decodeStrChars.eq_3, if_neg h]

/-- Unfolding of the decode loop at an escape. -/
theorem decodeStrChars_esc (e : Char) (rest : List Char) :
    decodeStrChars ('\\' :: e :: rest) = decodeEscChar e :: decodeStrChars rest := by
  rw [decodeStrChars.eq_3, if_pos rfl]

/-- Decoding inverts the inverse escape map, character by character. -/
theorem decodeStrChars_encodeEscapes (l : List Char) :
    decodeStrChars (encodeEscapes l) = l := by
  induction l with
  | nil => rfl
  | cons c l ih =>
    show decodeStrChars (encodeEsc c ++ encodeEscapes l) = c :: l
    by_cases h1 : c = '\n'
    · subst h1
      rw [show encodeEsc '\n' ++ encodeEscapes l = '\\' :: 'n' :: encodeEscapes l from rfl,
        decodeStrChars_esc, ih]
      rfl
    by_cases h2 : c = '\t'
    · subst h2
      rw [show encodeEsc '\t' ++ encodeEscapes l = '\\' :: 't' :: encodeEscapes l from rfl,
        decodeStrChars_esc, ih]
      rfl
    by_cases h3 : c = '\r'
    · subst h3
      rw [show encodeEsc '\r' ++ encodeEscapes l = '\\' :: 'r' :: encodeEscapes l from rfl,
        decodeStrChars_esc, ih]
      rfl
    by_cases h4 : c = '\x00'
    · subst h4
      rw [show encodeEsc '\x00' ++ encodeEscapes l = '\\' :: '0' :: encodeEscapes l from rfl,
        decodeStrChars_esc, ih]
      rfl
    by_cases h5 : c = '\''
    · subst h5
      rw [show encodeEsc '\'' ++ encodeEscapes l = '\\' :: '\'' :: encodeEscapes l from rfl,
        decodeStrChars_esc, ih]
      rfl
    by_cases h6 : c = '"'
    · subst h6
      rw [show encodeEsc '"' ++ encodeEscapes l = '\\' :: '"' :: encodeEscapes l from rfl,
        decodeStrChars_esc, ih]
      rfl
    by_cases h7 : c = '\\'
    · subst h7
      rw [show encodeEsc '\\' ++ encodeEscapes l = '\\' :: '\\' :: encodeEscapes l from rfl,
        decodeStrChars_esc, ih]
      rfl
    · have he : encodeEsc c = [c] := by simp [encodeEsc, h1, h2, h3, h4, h5, h6, h7]
      rw [he, show ([c] ++ encodeEscapes l) = c :: encodeEscapes l from rfl,
        decodeStrChars_cons c _ h7, ih]

/-- C8.  The explicit decode step (`parse_string`) strips the quotes,
maps each supported escape to its character, passes an unknown escape
through as the escaped character itself, and leaves plain characters
alone; re-encoding a decoded value with the inverse escape map and
decoding again is the identity, so decoding a literal built from the
seven supported escapes reproduces its content. -/
theorem c8_string_escape_roundtrip :
    (∀ l : List Char,
      parse_string (String.mk ('"' :: (encodeEscapes l ++ ['"']))) = String.mk l) ∧
    parse_string "\"a\\nb\\\\c\"" = "a\nb\\c" ∧
    parse_string "\"\\q\"" = "q" := by
  refine ⟨?_, rfl, rfl⟩
  intro l
  unfold parse_string
  have h0 : (String.mk ('"' :: (encodeEscapes l ++ ['"']))).toList
      = '"' :: (encodeEscapes l ++ ['"']) := rfl
  rw [h0]
  have h1 : ('"' :: (encodeEscapes l ++ ['"'])).drop 1 = encodeEscapes l ++ ['"'] := rfl
  rw [h1, List.dropLast_concat, decodeStrChars_encodeEscapes]

/-! ## C9: the lexer is deterministic -/

/-- C9.  The lexer of the embedding is a pure function of the input
text, so two runs on the same buffer give the same token sequence, and
`TokenStream::new` is exactly those tokens with a fresh cursor at
position 0 — no state survives from one run to the next. -/
theorem c9_lexer_deterministic (input : String) :
    tokenize input = tokenize input ∧
    TokenStream.new input = (tokenize input).map fun toks => ⟨toks, 0⟩ := by
  refine ⟨rfl, ?_⟩
  unfold TokenStream.new
  cases tokenize input <;> rfl

/-! ## C10: termination of the parser

The fuel of the embedding is the termination measure of the source: one
fuel unit per nesting level for `parse_statement` (each level consumes
at least one token before recursing) and `remaining + 1` for the driver
loops.  The lemmas below show the cursor never moves backwards, every
successful statement parse on a nonempty remainder strictly advances it,
and with the natural fuel the sentinel `Fatal.outOfFuel` is
unreachable. -/

/-- Shape of `TokenStream.next`: at the end it is the identity, else it
returns the token at the cursor and advances by one. -/
theorem next_shape (ts : TokenStream) :
    (ts.peek = none ∧ ts.next = (none, ts) ∧ ts.tokens.length ≤ ts.pos) ∨
    (∃ t, ts.peek = some t ∧ ts.next = (some t, ⟨ts.tokens, ts.pos + 1⟩) ∧
      ts.pos < ts.tokens.length) := by
  rw [TokenStream.peek, TokenStream.next]
  cases h : ts.tokens[ts.pos]? with
  | none => exact Or.inl ⟨rfl, rfl, List.getElem?_eq_none_iff.mp h⟩
  | some t => exact Or.inr ⟨t, rfl, rfl, (List.getElem?_eq_some_iff.mp h).1⟩

/-- `advance` keeps the buffer and moves the cursor by at most one. -/
theorem advance_shape (ts : TokenStream) :
    ts.advance.tokens = ts.tokens ∧ ts.pos ≤ ts.advance.pos ∧
      (ts.pos < ts.tokens.length → ts.advance.pos = ts.pos + 1) := by
  rcases next_shape ts with ⟨_, hnext, hlen⟩ | ⟨t, _, hnext, hlt⟩
  · rw [TokenStream.advance, hnext]
    exact ⟨rfl, le_refl _, fun hc => absurd hc (by omega)⟩
  · rw [TokenStream.advance, hnext]
    exact ⟨rfl, by simp, fun _ => rfl⟩

/-- Shape of `expect`: a non-fuel error, or the cursor advanced by
exactly one. -/
theorem expect_shape (ts : TokenStream) (k : TokenKind) :
    (∃ e, ts.expect k = .error e ∧ e ≠ .outOfFuel) ∨
    (ts.expect k = .ok ⟨ts.tokens, ts.pos + 1⟩ ∧ ts.pos < ts.tokens.length) := by
  rcases next_shape ts with ⟨_, hnext, _⟩ | ⟨t, _, hnext, hlt⟩
  · left
    refine ⟨.unexpectedEof, ?_, by simp⟩
    rw [TokenStream.expect, hnext]
  · by_cases hk : t.kind = k
    · right
      refine ⟨?_, hlt⟩
      rw [TokenStream.expect, hnext]
      show (if t.kind = k then Except.ok (⟨ts.tokens, ts.pos + 1⟩ : TokenStream)
            else Except.error (Fatal.expected k t.kind)) = Except.ok ⟨ts.tokens, ts.pos + 1⟩
      rw [if_pos hk]
    · left
      refine ⟨.expected k t.kind, ?_, by simp⟩
      rw [TokenStream.expect, hnext]
      show (if t.kind = k then Except.ok (⟨ts.tokens, ts.pos + 1⟩ : TokenStream)
            else Except.error (Fatal.expected k t.kind)) = Except.error (Fatal.expected k t.kind)
      rw [if_neg hk]

/-- The instruction-argument loop keeps the buffer and never moves the
cursor backwards. -/
theorem instrArgsAux_forward (f : Nat) :
    ∀ ts : TokenStream, (instrArgsAux f ts).2.tokens = ts.tokens ∧
      ts.pos ≤ (instrArgsAux f ts).2.pos := by
  induction f with
  | zero => intro ts; exact ⟨rfl, le_refl _⟩
  | succ f ih =>
    intro ts
    rcases next_shape ts with ⟨hpeek, _, _⟩ | ⟨t, hpeek, hnext, hlt⟩
    · simp [instrArgsAux, hpeek]
    · have hadv : ts.advance = ⟨ts.tokens, ts.pos + 1⟩ := by
        rw [TokenStream.advance, hnext]
      simp only [instrArgsAux, hpeek]
      cases renderInstrArg t.kind with
      | none => exact ⟨rfl, le_refl _⟩
      | some s =>
        rcases hX : instrArgsAux f ts.advance with ⟨args, ts2⟩
        have h2 := ih ts.advance
        rw [hX, hadv] at h2
        simp only [hX]
        dsimp only at h2 ⊢
        exact ⟨h2.1, by omega⟩

/-- The directive-argument loop keeps the buffer and never moves the
cursor backwards. -/
theorem dirArgsAux_forward (f : Nat) :
    ∀ ts : TokenStream, (dirArgsAux f ts).2.tokens = ts.tokens ∧
      ts.pos ≤ (dirArgsAux f ts).2.pos := by
  induction f with
  | zero => intro ts; exact ⟨rfl, le_refl _⟩
  | succ f ih =>
    intro ts
    rcases next_shape ts with ⟨hpeek, _, _⟩ | ⟨t, hpeek, hnext, hlt⟩
    · simp [dirArgsAux, hpeek]
    · have hadv : ts.advance = ⟨ts.tokens, ts.pos + 1⟩ := by
        rw [TokenStream.advance, hnext]
      simp only [dirArgsAux, hpeek]
      cases renderDirArg t.kind with
      | none => exact ⟨rfl, le_refl _⟩
      | some s =>
        rcases hX : dirArgsAux f ts.advance with ⟨args, ts2⟩
        have h2 := ih ts.advance
        rw [hX, hadv] at h2
        simp only [hX]
        dsimp only at h2 ⊢
        exact ⟨h2.1, by omega⟩

/-- `parse_var` steps forward on success and never raises the fuel
sentinel. -/
theorem parseVar_cases (ts : TokenStream) :
    (∃ r ts', parseVar ts = .ok (r, ts') ∧ StepsForward ts ts') ∨
    (∃ e, parseVar ts = .error e ∧ e ≠ .outOfFuel) := by
  have hadv := advance_shape ts
  unfold parseVar
  rcases next_shape ts.advance with ⟨_, hnext, _⟩ | ⟨t, _, hnext, hlt1⟩
  · rw [hnext]
    exact Or.inl ⟨none, ts.advance, rfl,
      hadv.1, hadv.2.1, fun hl => le_of_eq (hadv.2.2 hl).symm⟩
  · rw [hnext]
    dsimp only
    split
    · rcases expect_shape ⟨ts.advance.tokens, ts.advance.pos + 1⟩ .Equal with
        ⟨e, he, hne⟩ | ⟨hok, _⟩
      · rw [he, error_bind]
        exact Or.inr ⟨e, rfl, hne⟩
      · rw [hok, ok_bind]
        dsimp only
        rcases next_shape ⟨ts.advance.tokens, ts.advance.pos + 1 + 1⟩ with
          ⟨_, hnext2, _⟩ | ⟨t2, _, hnext2, _⟩
        · rw [hnext2]
          refine Or.inl ⟨none, _, rfl, hadv.1, ?_, fun _ => ?_⟩ <;> dsimp only <;> omega
        · rw [hnext2]
          dsimp only
          split
          · refine Or.inl ⟨_, _, rfl, hadv.1, ?_, fun _ => ?_⟩ <;> dsimp only <;> omega
          · exact Or.inr ⟨_, rfl, by simp⟩
    · exact Or.inr ⟨_, rfl, by simp⟩

/-- `parse_const` steps forward on success and never raises the fuel
sentinel. -/
theorem parseConst_cases (ts : TokenStream) :
    (∃ r ts', parseConst ts = .ok (r, ts') ∧ StepsForward ts ts') ∨
    (∃ e, parseConst ts = .error e ∧ e ≠ .outOfFuel) := by
  have hadv := advance_shape ts
  unfold parseConst
  rcases next_shape ts.advance with ⟨_, hnext, _⟩ | ⟨t, _, hnext, hlt1⟩
  · rw [hnext]
    exact Or.inl ⟨none, ts.advance, rfl,
      hadv.1, hadv.2.1, fun hl => le_of_eq (hadv.2.2 hl).symm⟩
  · rw [hnext]
    dsimp only
    split
    · rcases expect_shape ⟨ts.advance.tokens, ts.advance.pos + 1⟩ .Equal with
        ⟨e, he, hne⟩ | ⟨hok, _⟩
      · rw [he, error_bind]
        exact Or.inr ⟨e, rfl, hne⟩
      · rw [hok, ok_bind]
        dsimp only
        rcases next_shape ⟨ts.advance.tokens, ts.advance.pos + 1 + 1⟩ with
          ⟨_, hnext2, _⟩ | ⟨t2, _, hnext2, _⟩
        · rw [hnext2]
          refine Or.inl ⟨none, _, rfl, hadv.1, ?_, fun _ => ?_⟩ <;> dsimp only <;> omega
        · rw [hnext2]
          dsimp only
          split
          · refine Or.inl ⟨_, _, rfl, hadv.1, ?_, fun _ => ?_⟩ <;> dsimp only <;> omega
          · exact Or.inr ⟨_, rfl, by simp⟩
    · exact Or.inr ⟨_, rfl, by simp⟩

/-- `parse_label` steps forward on success and never raises the fuel
sentinel. -/
theorem parseLabel_cases (ts : TokenStream) :
    (∃ r ts', parseLabel ts = .ok (r, ts') ∧ StepsForward ts ts') ∨
    (∃ e, parseLabel ts = .error e ∧ e ≠ .outOfFuel) := by
  unfold parseLabel
  rcases next_shape ts with ⟨_, hnext, hlen⟩ | ⟨t, _, hnext, hlt⟩
  · rw [hnext]
    exact Or.inl ⟨none, ts, rfl, rfl, le_refl _, fun hl => absurd hl (by omega)⟩
  · rw [hnext]
    dsimp only
    split
    · rcases expect_shape ⟨ts.tokens, ts.pos + 1⟩ .Colon with ⟨e, he, hne⟩ | ⟨hok, _⟩
      · rw [he, error_bind]
        exact Or.inr ⟨e, rfl, hne⟩
      · rw [hok, ok_bind]
        refine Or.inl ⟨_, _, rfl, rfl, ?_, fun _ => ?_⟩ <;> dsimp only <;> omega
    · refine Or.inl ⟨none, _, rfl, rfl, ?_, fun _ => ?_⟩ <;> dsimp only <;> omega

/-- `parse_instruction` steps forward on success and never raises the
fuel sentinel. -/
theorem parseInstruction_cases (ts : TokenStream) :
    (∃ r ts', parseInstruction ts = .ok (r, ts') ∧ StepsForward ts ts') ∨
    (∃ e, parseInstruction ts = .error e ∧ e ≠ .outOfFuel) := by
  unfold parseInstruction
  rcases next_shape ts with ⟨_, hnext, hlen⟩ | ⟨t, _, hnext, hlt⟩
  · rw [hnext]
    exact Or.inl ⟨none, ts, rfl, rfl, le_refl _, fun hl => absurd hl (by omega)⟩
  · rw [hnext]
    dsimp only
    split
    · rcases hX : instrArgs ⟨ts.tokens, ts.pos + 1⟩ with ⟨args, ts2⟩
      have hfwd := instrArgsAux_forward (TokenStream.rem ⟨ts.tokens, ts.pos + 1⟩)
        ⟨ts.tokens, ts.pos + 1⟩
      rw [show instrArgsAux (TokenStream.rem ⟨ts.tokens, ts.pos + 1⟩) ⟨ts.tokens, ts.pos + 1⟩
          = instrArgs ⟨ts.tokens, ts.pos + 1⟩ from rfl, hX] at hfwd
      dsimp only at hfwd
      dsimp only
      exact Or.inl ⟨_, _, rfl, hfwd.1, by omega, fun _ => by omega⟩
    · refine Or.inl ⟨none, _, rfl, rfl, ?_, fun _ => ?_⟩ <;> dsimp only <;> omega

/-- `parse_directive` steps forward on success and never raises the fuel
sentinel. -/
theorem parseDirective_cases (ts : TokenStream) :
    (∃ r ts', parseDirective ts = .ok (r, ts') ∧ StepsForward ts ts') ∨
    (∃ e, parseDirective ts = .error e ∧ e ≠ .outOfFuel) := by
  unfold parseDirective
  rcases next_shape ts with ⟨_, hnext, hlen⟩ | ⟨t, _, hnext, hlt⟩
  · rw [hnext]
    exact Or.inl ⟨none, ts, rfl, rfl, le_refl _, fun hl => absurd hl (by omega)⟩
  · rw [hnext]
    dsimp only
    rcases hX : dirArgs ⟨ts.tokens, ts.pos + 1⟩ with ⟨args, ts2⟩
    have hfwd := dirArgsAux_forward (TokenStream.rem ⟨ts.tokens, ts.pos + 1⟩)
      ⟨ts.tokens, ts.pos + 1⟩
    rw [show dirArgsAux (TokenStream.rem ⟨ts.tokens, ts.pos + 1⟩) ⟨ts.tokens, ts.pos + 1⟩
        = dirArgs ⟨ts.tokens, ts.pos + 1⟩ from rfl, hX] at hfwd
    dsimp only at hfwd
    dsimp only
    exact Or.inl ⟨_, _, rfl, hfwd.1, by omega, fun _ => by omega⟩

/-- `parse_include` steps forward on success and never raises the fuel
sentinel. -/
theorem parseInclude_cases (ts : TokenStream) :
    (∃ r ts', parseInclude ts = .ok (r, ts') ∧ StepsForward ts ts') ∨
    (∃ e, parseInclude ts = .error e ∧ e ≠ .outOfFuel) := by
  unfold parseInclude
  rcases expect_shape ts .Include with ⟨e, he, hne⟩ | ⟨hok, hlt⟩
  · rw [he, error_bind]
    exact Or.inr ⟨e, rfl, hne⟩
  · rw [hok, ok_bind]
    rcases next_shape ⟨ts.tokens, ts.pos + 1⟩ with ⟨_, hnext, _⟩ | ⟨t, _, hnext, _⟩
    · rw [hnext]
      refine Or.inl ⟨none, _, rfl, rfl, ?_, fun _ => ?_⟩ <;> dsimp only <;> omega
    · rw [hnext]
      dsimp only
      split
      · refine Or.inl ⟨_, _, rfl, rfl, ?_, fun _ => ?_⟩ <;> dsimp only <;> omega
      · exact Or.inr ⟨_, rfl, by simp⟩

/-- The macro parameter-list loop keeps the buffer, never moves the
cursor backwards, and never raises the fuel sentinel. -/
theorem paramListAux_cases (f : Nat) :
    ∀ ts : TokenStream,
      (∃ r ts', paramListAux f ts = .ok (r, ts') ∧ ts'.tokens = ts.tokens ∧
        ts.pos ≤ ts'.pos) ∨
      (∃ e, paramListAux f ts = .error e ∧ e ≠ .outOfFuel) := by
  induction f with
  | zero => intro ts; exact Or.inl ⟨none, ts, rfl, rfl, le_refl _⟩
  | succ f ih =>
    intro ts
    rw [paramListAux]
    rcases next_shape ts with ⟨_, hnext, hlen⟩ | ⟨t, _, hnext, hlt⟩
    · rw [hnext]
      exact Or.inl ⟨none, ts, rfl, rfl, le_refl _⟩
    · rw [hnext]
      dsimp only
      split
      · rcases ih ⟨ts.tokens, ts.pos + 1⟩ with ⟨r, ts2, hrec, htok, hpos⟩ | ⟨e, hrec, hne⟩
        · rw [hrec, ok_bind]
          dsimp only at htok hpos
          cases r with
          | none => exact Or.inl ⟨none, ts2, rfl, htok, by omega⟩
          | some ps => exact Or.inl ⟨_, ts2, rfl, htok, by omega⟩
        · rw [hrec, error_bind]
          exact Or.inr ⟨e, rfl, hne⟩
      · refine Or.inl ⟨_, _, rfl, rfl, ?_⟩
        dsimp only
        omega
      · rcases ih ⟨ts.tokens, ts.pos + 1⟩ with ⟨r, ts2, hrec, htok, hpos⟩ | ⟨e, hrec, hne⟩
        · rw [hrec]
          dsimp only at htok hpos
          exact Or.inl ⟨r, ts2, rfl, htok, by omega⟩
        · rw [hrec]
          exact Or.inr ⟨e, rfl, hne⟩
      · exact Or.inr ⟨_, rfl, by simp⟩

/-- The block-body loop keeps the buffer and never moves the cursor
backwards, for any well-behaved statement parser. -/
theorem blockBodyAux_forward (p : PStmt) (hp : ParserOk p) (f : Nat) :
    ∀ ts l ts', blockBodyAux p f ts = .ok (l, ts') →
      ts'.tokens = ts.tokens ∧ ts.pos ≤ ts'.pos := by
  induction f with
  | zero => intro ts l ts' h; simp [blockBodyAux] at h
  | succ f ih =>
    intro ts l ts' h
    rw [blockBodyAux] at h
    rcases next_shape ts with ⟨hpeek, _, _⟩ | ⟨t, hpeek, _, hlt⟩
    · rw [hpeek] at h
      dsimp only at h
      simp only [Except.ok.injEq, Prod.mk.injEq] at h
      obtain ⟨_, hts⟩ := h
      subst hts
      exact ⟨rfl, le_refl _⟩
    · rw [hpeek] at h
      dsimp only at h
      by_cases hrb : t.kind = .RightBrace
      · rw [if_pos hrb] at h
        simp only [Except.ok.injEq, Prod.mk.injEq] at h
        obtain ⟨_, hts⟩ := h
        subst hts
        exact ⟨rfl, le_refl _⟩
      · rw [if_neg hrb] at h
        rcases hps : p ts with e | ⟨r, ts1⟩
        · rw [hps, error_bind] at h
          exact absurd h (by simp)
        · rw [hps, ok_bind] at h
          dsimp only at h
          have hsf := hp ts r ts1 hps
          cases r with
          | some s =>
            dsimp only at h
            rcases hrec : blockBodyAux p f ts1 with e | ⟨body, ts2⟩
            · rw [hrec, error_bind] at h
              exact absurd h (by simp)
            · rw [hrec, ok_bind] at h
              dsimp only at h
              simp only [Except.ok.injEq, Prod.mk.injEq] at h
              obtain ⟨_, hts⟩ := h
              subst hts
              have hb := ih ts1 body ts2 hrec
              exact ⟨by rw [hb.1, hsf.1], le_trans hsf.2.1 hb.2⟩
          | none =>
            dsimp only at h
            have hb := ih ts1.advance l ts' h
            have hadv := advance_shape ts1
            exact ⟨by rw [hb.1, hadv.1, hsf.1],
              le_trans hsf.2.1 (le_trans hadv.2.1 hb.2)⟩

/-- With fuel above the remaining-token count, the block-body loop never
raises the fuel sentinel. -/
theorem blockBodyAux_no_oof (p : PStmt) (toks : List Token) (F : Nat)
    (hp : ParserOk p)
    (hoof : ∀ ts1 : TokenStream, ts1.tokens = toks → ts1.rem < F →
      p ts1 ≠ .error .outOfFuel) (f : Nat) :
    ∀ ts : TokenStream, ts.tokens = toks → ts.rem < F → ts.rem < f →
      blockBodyAux p f ts ≠ .error .outOfFuel := by
  induction f with
  | zero => intro ts _ _ hf; omega
  | succ f ih =>
    intro ts htoks hF hf
    dsimp only [TokenStream.rem] at hF hf
    rw [blockBodyAux]
    rcases next_shape ts with ⟨hpeek, _, _⟩ | ⟨t, hpeek, _, hlt⟩
    · rw [hpeek]
      simp
    · rw [hpeek]
      dsimp only
      by_cases hrb : t.kind = .RightBrace
      · rw [if_pos hrb]
        simp
      · rw [if_neg hrb]
        rcases hps : p ts with e | ⟨r, ts1⟩
        · rw [error_bind]
          simp only [ne_eq, Except.error.injEq]
          intro he
          exact hoof ts htoks (by dsimp only [TokenStream.rem]; omega) (by rw [hps, he])
        · rw [ok_bind]
          dsimp only
          have hsf := hp ts r ts1 hps
          have hlen1 : ts1.tokens.length = ts.tokens.length := by rw [hsf.1]
          have hprog : ts.pos + 1 ≤ ts1.pos := hsf.2.2 hlt
          cases r with
          | some s =>
            dsimp only
            rcases hrec : blockBodyAux p f ts1 with e | ⟨body, ts2⟩
            · rw [error_bind]
              simp only [ne_eq, Except.error.injEq]
              intro he
              refine ih ts1 (by rw [hsf.1, htoks])
                (by dsimp only [TokenStream.rem]; omega)
                (by dsimp only [TokenStream.rem]; omega) ?_
              rw [hrec, he]
            · rw [ok_bind]
              dsimp only
              simp
          | none =>
            dsimp only
            have hadv := advance_shape ts1
            refine ih ts1.advance (by rw [hadv.1, hsf.1, htoks]) ?_ ?_
            · dsimp only [TokenStream.rem]
              rw [hadv.1]
              omega
            · dsimp only [TokenStream.rem]
              rw [hadv.1]
              omega

/-- The parameter-list loop at its natural fuel: monotone on success. -/
theorem paramList_forward (ts : TokenStream) (r : Option (List String))
    (ts' : TokenStream) (h : paramList ts = .ok (r, ts')) :
    ts'.tokens = ts.tokens ∧ ts.pos ≤ ts'.pos := by
  rcases paramListAux_cases ts.rem ts with ⟨r0, ts0, heq, htok, hpos⟩ | ⟨e, heq, _⟩
  · rw [show paramList ts = paramListAux ts.rem ts from rfl, heq] at h
    simp only [Except.ok.injEq, Prod.mk.injEq] at h
    obtain ⟨_, h2⟩ := h
    subst h2
    exact ⟨htok, hpos⟩
  · rw [show paramList ts = paramListAux ts.rem ts from rfl, heq] at h
    exact absurd h (by simp)

/-- The parameter-list loop never raises the fuel sentinel. -/
theorem paramList_ne_oof (ts : TokenStream) (e : Fatal)
    (h : paramList ts = .error e) : e ≠ .outOfFuel := by
  rcases paramListAux_cases ts.rem ts with ⟨r0, ts0, heq, _, _⟩ | ⟨e0, heq, hne⟩
  · rw [show paramList ts = paramListAux ts.rem ts from rfl, heq] at h
    exact absurd h (by simp)
  · rw [show paramList ts = paramListAux ts.rem ts from rfl, heq] at h
    simp only [Except.error.injEq] at h
    subst h
    exact hne

/-- `parse_block` keeps the buffer and strictly advances the cursor on
success. -/
theorem parseBlockF_forward (p : PStmt) (hp : ParserOk p) :
    ∀ ts r ts', parseBlockF p ts = .ok (r, ts') →
      ts'.tokens = ts.tokens ∧ ts.pos + 1 ≤ ts'.pos := by
  intro ts r ts' h
  unfold parseBlockF at h
  rcases expect_shape ts .LeftBrace with ⟨e, he, _⟩ | ⟨hok, hlt⟩
  · rw [he, error_bind] at h
    exact absurd h (by simp)
  · rw [hok, ok_bind] at h
    rcases hbb : blockBodyAux p (TokenStream.rem ⟨ts.tokens, ts.pos + 1⟩ + 1)
        ⟨ts.tokens, ts.pos + 1⟩ with e | ⟨body, ts2⟩
    · rw [hbb, error_bind] at h
      exact absurd h (by simp)
    · rw [hbb, ok_bind] at h
      dsimp only at h
      have hb := blockBodyAux_forward p hp _ _ _ _ hbb
      dsimp only at hb
      rcases expect_shape ts2 .RightBrace with ⟨e, he2, _⟩ | ⟨hok2, hlt2⟩
      · rw [he2, error_bind] at h
        exact absurd h (by simp)
      · rw [hok2, ok_bind] at h
        simp only [Except.ok.injEq, Prod.mk.injEq] at h
        obtain ⟨_, hts⟩ := h
        subst hts
        refine ⟨hb.1, ?_⟩
        dsimp only
        omega

/-- With the natural fuel, `parse_block` never raises the fuel
sentinel. -/
theorem parseBlockF_no_oof (p : PStmt) (toks : List Token) (F : Nat)
    (hp : ParserOk p)
    (hoof : ∀ ts1 : TokenStream, ts1.tokens = toks → ts1.rem < F →
      p ts1 ≠ .error .outOfFuel) :
    ∀ ts : TokenStream, ts.tokens = toks → ts.rem ≤ F →
      parseBlockF p ts ≠ .error .outOfFuel := by
  intro ts htoks hrem
  dsimp only [TokenStream.rem] at hrem
  unfold parseBlockF
  rcases expect_shape ts .LeftBrace with ⟨e, he, hne⟩ | ⟨hok, hlt⟩
  · rw [he, error_bind]
    simpa using hne
  · rw [hok, ok_bind]
    have hbbnoof := blockBodyAux_no_oof p toks F hp hoof
      (TokenStream.rem ⟨ts.tokens, ts.pos + 1⟩ + 1) ⟨ts.tokens, ts.pos + 1⟩
      (by dsimp only; exact htoks)
      (by dsimp only [TokenStream.rem]; omega)
      (by omega)
    rcases hbb : blockBodyAux p (TokenStream.rem ⟨ts.tokens, ts.pos + 1⟩ + 1)
        ⟨ts.tokens, ts.pos + 1⟩ with e | ⟨body, ts2⟩
    · rw [error_bind]
      rw [hbb] at hbbnoof
      simpa using hbbnoof
    · rw [ok_bind]
      dsimp only
      rcases expect_shape ts2 .RightBrace with ⟨e, he2, hne2⟩ | ⟨hok2, _⟩
      · rw [he2, error_bind]
        simpa using hne2
      · rw [hok2, ok_bind]
        simp

/-- Result analysis for `parse_macro`: either a successful,
strictly-advancing result, or an error that is not the fuel sentinel
unless it propagated out of the body block at a cursor at least as far
as the entry. -/
theorem parseMacroF_split (p : PStmt) (hp : ParserOk p) (ts : TokenStream) :
    (∃ r ts', parseMacroF p ts = .ok (r, ts') ∧ ts'.tokens = ts.tokens ∧
      ts.pos + 1 ≤ ts'.pos) ∨
    (∃ e, parseMacroF p ts = .error e ∧
      (e ≠ .outOfFuel ∨ ∃ ts3, ts3.tokens = ts.tokens ∧ ts.pos ≤ ts3.pos ∧
        parseBlockF p ts3 = .error e)) := by
  unfold parseMacroF
  rcases expect_shape ts .MacroRules with ⟨e, he, hne⟩ | ⟨hok, hlt⟩
  · rw [he, error_bind]
    exact Or.inr ⟨e, rfl, Or.inl hne⟩
  · rw [hok, ok_bind]
    rcases next_shape ⟨ts.tokens, ts.pos + 1⟩ with ⟨_, hnext, _⟩ | ⟨t, _, hnext, _⟩
    · rw [hnext]
      dsimp only
      exact Or.inl ⟨none, ⟨ts.tokens, ts.pos + 1⟩, rfl, rfl, by dsimp only; omega⟩
    · rw [hnext]
      dsimp only
      split
      · rcases expect_shape ⟨ts.tokens, ts.pos + 1 + 1⟩ .LeftParen with
          ⟨e, he2, hne2⟩ | ⟨hok2, _⟩
        · rw [he2, error_bind]
          exact Or.inr ⟨e, rfl, Or.inl hne2⟩
        · rw [hok2, ok_bind]
          dsimp only
          rcases hpl : paramList ⟨ts.tokens, ts.pos + 1 + 1 + 1⟩ with e | ⟨ps, ts3⟩
          · rw [error_bind]
            refine Or.inr ⟨e, rfl, Or.inl ?_⟩
            intro hcontra
            subst hcontra
            exact paramList_ne_oof _ _ hpl rfl
          · rw [ok_bind]
            have hplf := paramList_forward _ _ _ hpl
            dsimp only at hplf
            cases ps with
            | none =>
              dsimp only
              exact Or.inl ⟨none, ts3, rfl, hplf.1, by omega⟩
            | some params =>
              dsimp only
              rcases hbf : parseBlockF p ts3 with e | ⟨rb, ts4⟩
              · rw [error_bind]
                exact Or.inr ⟨e, rfl, Or.inr ⟨ts3, hplf.1, by omega, hbf⟩⟩
              · rw [ok_bind]
                have hbff := parseBlockF_forward p hp ts3 rb ts4 hbf
                cases rb with
                | none =>
                  dsimp only
                  exact Or.inl ⟨none, ts4, rfl, by rw [hbff.1, hplf.1], by omega⟩
                | some stmt =>
                  cases stmt <;> dsimp only
                  case Block body =>
                    exact Or.inl ⟨_, ts4, rfl, by rw [hbff.1, hplf.1], by omega⟩
                  all_goals exact Or.inr ⟨_, rfl, Or.inl (by simp)⟩
      · exact Or.inr ⟨_, rfl, Or.inl (by simp)⟩

/-- Result analysis for `parse_for_loop`: either a successful,
strictly-advancing result, or an error that is not the fuel sentinel
unless it propagated out of the body block at a cursor at least as far
as the entry. -/
theorem parseForLoopF_split (p : PStmt) (hp : ParserOk p) (ts : TokenStream) :
    (∃ r ts', parseForLoopF p ts = .ok (r, ts') ∧ ts'.tokens = ts.tokens ∧
      ts.pos + 1 ≤ ts'.pos) ∨
    (∃ e, parseForLoopF p ts = .error e ∧
      (e ≠ .outOfFuel ∨ ∃ ts3, ts3.tokens = ts.tokens ∧ ts.pos ≤ ts3.pos ∧
        parseBlockF p ts3 = .error e)) := by
  unfold parseForLoopF
  rcases expect_shape ts .ForBang with ⟨e, he, hne⟩ | ⟨hok, _⟩
  · rw [he, error_bind]
    exact Or.inr ⟨e, rfl, Or.inl hne⟩
  · rw [hok, ok_bind]
    rcases expect_shape ⟨ts.tokens, ts.pos + 1⟩ .LeftParen with ⟨e, he2, hne2⟩ | ⟨hok2, _⟩
    · rw [he2, error_bind]
      exact Or.inr ⟨e, rfl, Or.inl hne2⟩
    · rw [hok2, ok_bind]
      dsimp only
      rcases expect_shape ⟨ts.tokens, ts.pos + 1 + 1⟩ .Var with ⟨e, he3, hne3⟩ | ⟨hok3, _⟩
      · rw [he3, error_bind]
        exact Or.inr ⟨e, rfl, Or.inl hne3⟩
      · rw [hok3, ok_bind]
        dsimp only
        rcases next_shape ⟨ts.tokens, ts.pos + 1 + 1 + 1⟩ with
          ⟨_, hnext, _⟩ | ⟨t, _, hnext, _⟩
        · rw [hnext]
          dsimp only
          exact Or.inl ⟨none, _, rfl, rfl, by dsimp only; omega⟩
        · rw [hnext]
          dsimp only
          split
          · rcases expect_shape ⟨ts.tokens, ts.pos + 1 + 1 + 1 + 1⟩ .Equal with
              ⟨e, he4, hne4⟩ | ⟨hok4, _⟩
            · rw [he4, error_bind]
              exact Or.inr ⟨e, rfl, Or.inl hne4⟩
            · rw [hok4, ok_bind]
              dsimp only
              rcases next_shape ⟨ts.tokens, ts.pos + 1 + 1 + 1 + 1 + 1⟩ with
                ⟨_, hnext2, _⟩ | ⟨t2, _, hnext2, _⟩
              · rw [hnext2]
                dsimp only
                exact Or.inl ⟨none, _, rfl, rfl, by dsimp only; omega⟩
              · rw [hnext2]
                dsimp only
                split
                · rcases expect_shape ⟨ts.tokens, ts.pos + 1 + 1 + 1 + 1 + 1 + 1⟩
                    .Semicolon with ⟨e, he5, hne5⟩ | ⟨hok5, _⟩
                  · rw [he5, error_bind]
                    exact Or.inr ⟨e, rfl, Or.inl hne5⟩
                  · rw [hok5, ok_bind]
                    dsimp only
                    rcases expect_shape ⟨ts.tokens, ts.pos + 1 + 1 + 1 + 1 + 1 + 1 + 1⟩
                      (.Ident _) with ⟨e, he6, hne6⟩ | ⟨hok6, _⟩
                    · rw [he6, error_bind]
                      exact Or.inr ⟨e, rfl, Or.inl hne6⟩
                    · rw [hok6, ok_bind]
                      dsimp only
                      rcases expect_shape
                        ⟨ts.tokens, ts.pos + 1 + 1 + 1 + 1 + 1 + 1 + 1 + 1⟩ .Less with
                        ⟨e, he7, hne7⟩ | ⟨hok7, _⟩
                      · rw [he7, error_bind]
                        exact Or.inr ⟨e, rfl, Or.inl hne7⟩
                      · rw [hok7, ok_bind]
                        dsimp only
                        rcases next_shape
                          ⟨ts.tokens, ts.pos + 1 + 1 + 1 + 1 + 1 + 1 + 1 + 1 + 1⟩ with
                          ⟨_, hnext3, _⟩ | ⟨t3, _, hnext3, _⟩
                        · rw [hnext3]
                          dsimp only
                          exact Or.inl ⟨none, _, rfl, rfl, by dsimp only; omega⟩
                        · rw [hnext3]
                          dsimp only
                          split
                          · rcases expect_shape
                              ⟨ts.tokens, ts.pos + 1 + 1 + 1 + 1 + 1 + 1 + 1 + 1 + 1 + 1⟩
                              .Semicolon with ⟨e, he8, hne8⟩ | ⟨hok8, _⟩
                            · rw [he8, error_bind]
                              exact Or.inr ⟨e, rfl, Or.inl hne8⟩
                            · rw [hok8, ok_bind]
                              dsimp only
                              rcases expect_shape
                                ⟨ts.tokens,
                                  ts.pos + 1 + 1 + 1 + 1 + 1 + 1 + 1 + 1 + 1 + 1 + 1⟩
                                (.Ident _) with ⟨e, he9, hne9⟩ | ⟨hok9, _⟩
                              · rw [he9, error_bind]
                                exact Or.inr ⟨e, rfl, Or.inl hne9⟩
                              · rw [hok9, ok_bind]
                                dsimp only
                                rcases expect_shape
                                  ⟨ts.tokens,
                                    ts.pos + 1 + 1 + 1 + 1 + 1 + 1 + 1 + 1 + 1 + 1 + 1 + 1⟩
                                  .PlusPlus with ⟨e, he10, hne10⟩ | ⟨hok10, _⟩
                                · rw [he10, error_bind]
                                  exact Or.inr ⟨e, rfl, Or.inl hne10⟩
                                · rw [hok10, ok_bind]
                                  dsimp only
                                  rcases expect_shape
                                    ⟨ts.tokens,
                                      ts.pos + 1 + 1 + 1 + 1 + 1 + 1 + 1 + 1 + 1 + 1 + 1
                                        + 1 + 1⟩
                                    .RightParen with ⟨e, he11, hne11⟩ | ⟨hok11, _⟩
                                  · rw [he11, error_bind]
                                    exact Or.inr ⟨e, rfl, Or.inl hne11⟩
                                  · rw [hok11, ok_bind]
                                    dsimp only
                                    rcases hbf : parseBlockF p
                                      ⟨ts.tokens,
                                        ts.pos + 1 + 1 + 1 + 1 + 1 + 1 + 1 + 1 + 1 + 1
                                          + 1 + 1 + 1 + 1⟩ with e | ⟨rb, ts4⟩
                                    · rw [error_bind]
                                      exact Or.inr ⟨e, rfl, Or.inr
                                        ⟨⟨ts.tokens, ts.pos + 1 + 1 + 1 + 1 + 1 + 1 + 1
                                            + 1 + 1 + 1 + 1 + 1 + 1 + 1⟩,
                                          rfl, by dsimp only; omega, hbf⟩⟩
                                    · rw [ok_bind]
                                      have hbff := parseBlockF_forward p hp _ rb ts4 hbf
                                      dsimp only at hbff
                                      cases rb with
                                      | none =>
                                        dsimp only
                                        exact Or.inl ⟨none, ts4, rfl, hbff.1, by omega⟩
                                      | some stmt =>
                                        cases stmt <;> dsimp only
                                        case Block body =>
                                          exact Or.inl ⟨_, ts4, rfl, hbff.1, by omega⟩
                                        all_goals exact Or.inr ⟨_, rfl, Or.inl (by simp)⟩
                          · exact Or.inr ⟨_, rfl, Or.inl (by simp)⟩
                · exact Or.inr ⟨_, rfl, Or.inl (by simp)⟩
          · exact Or.inr ⟨_, rfl, Or.inl (by simp)⟩

/-- Glue: a case analysis of the leaf shape yields `StepsForward` for
any successful outcome. -/
theorem ok_of_cases {res : Except Fatal (Option Statement × TokenStream)}
    {ts ts' : TokenStream} {r : Option Statement}
    (hc : (∃ r0 ts0, res = .ok (r0, ts0) ∧ StepsForward ts ts0) ∨
      (∃ e, res = .error e ∧ e ≠ .outOfFuel))
    (h : res = .ok (r, ts')) : StepsForward ts ts' := by
  rcases hc with ⟨r0, ts0, heq, hsf⟩ | ⟨e, heq, _⟩
  · rw [heq] at h
    simp only [Except.ok.injEq, Prod.mk.injEq] at h
    obtain ⟨_, h2⟩ := h
    subst h2
    exact hsf
  · rw [heq] at h
    exact absurd h (by simp)

/-- Glue: a case analysis of the leaf shape rules out the fuel
sentinel. -/
theorem noof_of_cases {res : Except Fatal (Option Statement × TokenStream)}
    {ts : TokenStream}
    (hc : (∃ r0 ts0, res = .ok (r0, ts0) ∧ StepsForward ts ts0) ∨
      (∃ e, res = .error e ∧ e ≠ .outOfFuel)) :
    res ≠ .error .outOfFuel := by
  rcases hc with ⟨r0, ts0, heq, _⟩ | ⟨e, heq, hne⟩
  · rw [heq]; simp
  · rw [heq]; simpa using hne

/-- Glue: the `split` shape of the nesting constructs yields
`StepsForward` for any successful outcome. -/
theorem ok_of_split {res : Except Fatal (Option Statement × TokenStream)}
    {ts ts' : TokenStream} {r : Option Statement} {P : Fatal → Prop}
    (hc : (∃ r0 ts0, res = .ok (r0, ts0) ∧ ts0.tokens = ts.tokens ∧
        ts.pos + 1 ≤ ts0.pos) ∨
      (∃ e, res = .error e ∧ P e))
    (h : res = .ok (r, ts')) : StepsForward ts ts' := by
  rcases hc with ⟨r0, ts0, heq, htok, hpos⟩ | ⟨e, heq, _⟩
  · rw [heq] at h
    simp only [Except.ok.injEq, Prod.mk.injEq] at h
    obtain ⟨_, h2⟩ := h
    subst h2
    exact ⟨htok, by omega, fun _ => hpos⟩
  · rw [heq] at h
    exact absurd h (by simp)

/-- The master lemma for `parse_statement`: with any fuel, a successful
parse keeps the buffer and strictly advances past a nonempty remainder,
and fuel above the remaining-token count never raises the sentinel.
The fuel only bounds the block-nesting depth, and each nesting level
consumes at least one token before recursing, so `remaining + 1` is
always enough. -/
theorem parseStatement_master :
    ∀ f : Nat, ParserOk (parseStatement f) ∧
      (∀ ts : TokenStream, ts.rem < f → parseStatement f ts ≠ .error .outOfFuel) := by
  intro f
  induction f with
  | zero =>
    refine ⟨fun ts r ts' h => ?_, fun ts hrem => ?_⟩
    · simp [parseStatement] at h
    · exact absurd hrem (Nat.not_lt_zero _)
  | succ f ih =>
    have hp : ParserOk (parseStatement f) := ih.1
    have hoofp : ∀ (toks : List Token) (ts1 : TokenStream), ts1.tokens = toks →
        ts1.rem < f → parseStatement f ts1 ≠ .error .outOfFuel :=
      fun _ ts1 _ hr => ih.2 ts1 hr
    constructor
    · intro ts r ts' h
      simp only [parseStatement] at h
      rcases next_shape ts with ⟨hpeek, _, hlen⟩ | ⟨t, hpeek, _, hlt⟩
      · rw [hpeek] at h
        dsimp only at h
        simp only [Except.ok.injEq, Prod.mk.injEq] at h
        obtain ⟨_, hts⟩ := h
        subst hts
        exact ⟨rfl, le_refl _, fun hc => absurd hc (by omega)⟩
      · rw [hpeek] at h
        dsimp only at h
        split at h
        · exact ok_of_cases (parseVar_cases ts) h
        · exact ok_of_cases (parseConst_cases ts) h
        · split at h
          · exact ok_of_cases (parseLabel_cases ts) h
          · exact ok_of_cases (parseInstruction_cases ts) h
        · exact ok_of_cases (parseDirective_cases ts) h
        · exact ok_of_cases (parseInclude_cases ts) h
        · exact ok_of_split (parseMacroF_split (parseStatement f) hp ts) h
        · exact ok_of_split (parseForLoopF_split (parseStatement f) hp ts) h
        · -- a bare block
          rcases hbf : parseBlockF (parseStatement f) ts with e | ⟨rb, ts4⟩
          · rw [hbf] at h
            exact absurd h (by simp)
          · rw [hbf] at h
            simp only [Except.ok.injEq, Prod.mk.injEq] at h
            obtain ⟨_, hts⟩ := h
            subst hts
            have hb := parseBlockF_forward (parseStatement f) hp ts rb ts4 hbf
            exact ⟨hb.1, by omega, fun _ => hb.2⟩
        · -- the catch-all skip arm
          have hadv := advance_shape ts
          simp only [Except.ok.injEq, Prod.mk.injEq] at h
          obtain ⟨_, hts⟩ := h
          subst hts
          exact ⟨hadv.1, hadv.2.1, fun hc => le_of_eq (hadv.2.2 hc).symm⟩
    · intro ts hrem
      have hremle : ts.rem ≤ f := by omega
      simp only [parseStatement]
      rcases next_shape ts with ⟨hpeek, _, hlen⟩ | ⟨t, hpeek, _, hlt⟩
      · rw [hpeek]
        dsimp only
        simp
      · rw [hpeek]
        dsimp only
        split
        · exact noof_of_cases (parseVar_cases ts)
        · exact noof_of_cases (parseConst_cases ts)
        · split
          · exact noof_of_cases (parseLabel_cases ts)
          · exact noof_of_cases (parseInstruction_cases ts)
        · exact noof_of_cases (parseDirective_cases ts)
        · exact noof_of_cases (parseInclude_cases ts)
        · rcases parseMacroF_split (parseStatement f) hp ts with
            ⟨r0, ts0, heq, _, _⟩ | ⟨e, heq, hdis⟩
          · rw [heq]; simp
          · rw [heq]
            simp only [ne_eq, Except.error.injEq]
            intro he
            subst he
            rcases hdis with hne | ⟨ts3, htok3, hpos3, hbf⟩
            · exact hne rfl
            · refine parseBlockF_no_oof (parseStatement f) ts.tokens f hp (hoofp ts.tokens) ts3
                htok3 ?_ hbf
              dsimp only [TokenStream.rem] at hremle ⊢
              rw [htok3]
              omega
        · rcases parseForLoopF_split (parseStatement f) hp ts with
            ⟨r0, ts0, heq, _, _⟩ | ⟨e, heq, hdis⟩
          · rw [heq]; simp
          · rw [heq]
            simp only [ne_eq, Except.error.injEq]
            intro he
            subst he
            rcases hdis with hne | ⟨ts3, htok3, hpos3, hbf⟩
            · exact hne rfl
            · refine parseBlockF_no_oof (parseStatement f) ts.tokens f hp (hoofp ts.tokens) ts3
                htok3 ?_ hbf
              dsimp only [TokenStream.rem] at hremle ⊢
              rw [htok3]
              omega
        · exact parseBlockF_no_oof (parseStatement f) ts.tokens f hp (hoofp ts.tokens) ts rfl hremle
        · simp

/-- The statement parser at its natural fuel steps forward on
success. -/
theorem pstmtTop_forward : ParserOk pstmtTop :=
  fun ts r ts' h => (parseStatement_master (ts.rem + 1)).1 ts r ts' h

/-- The statement parser at its natural fuel never raises the fuel
sentinel. -/
theorem pstmtTop_no_oof (ts : TokenStream) : pstmtTop ts ≠ .error .outOfFuel :=
  (parseStatement_master (ts.rem + 1)).2 ts (by omega)

/-- The driver loop of `Parser::parse` never raises the fuel sentinel
when its fuel exceeds the remaining-token count. -/
theorem parseTopAux_no_oof (f : Nat) :
    ∀ ts : TokenStream, ts.rem < f →
      parseTopAux pstmtTop f ts ≠ .error .outOfFuel := by
  induction f with
  | zero => intro ts hrem; exact absurd hrem (Nat.not_lt_zero _)
  | succ f ih =>
    intro ts hrem
    rw [parseTopAux]
    cases heof : ts.eof with
    | true => simp [heof]
    | false =>
      simp only [heof, Bool.false_eq_true, if_false]
      have hlt : ts.pos < ts.tokens.length := by
        simp [TokenStream.eof] at heof
        omega
      rcases hps : pstmtTop ts with e | ⟨r, ts1⟩
      · rw [error_bind]
        simp only [ne_eq, Except.error.injEq]
        intro he
        exact pstmtTop_no_oof ts (by rw [hps, he])
      · rw [ok_bind]
        dsimp only
        have hsf := pstmtTop_forward ts r ts1 hps
        have hprog : ts.pos + 1 ≤ ts1.pos := hsf.2.2 hlt
        have hlen1 : ts1.tokens.length = ts.tokens.length := by rw [hsf.1]
        dsimp only [TokenStream.rem] at hrem
        cases r with
        | some s =>
          dsimp only
          rcases hrec : parseTopAux pstmtTop f ts1 with e2 | pr
          · rw [error_bind]
            simp only [ne_eq, Except.error.injEq]
            intro he
            refine ih ts1 ?_ ?_
            · dsimp only [TokenStream.rem]
              omega
            · rw [hrec, he]
          · rw [ok_bind]
            simp
        | none =>
          dsimp only
          have hadv := advance_shape ts1
          refine ih ts1.advance ?_
          dsimp only [TokenStream.rem]
          rw [hadv.1]
          omega

/-- `Parser::parse` on any stream never raises the fuel sentinel: its
natural fuel is sufficient. -/
theorem parserParse_no_oof (ts : TokenStream) :
    parserParse ts ≠ .error .outOfFuel := by
  unfold parserParse
  rcases hr : parseTopAux pstmtTop (ts.rem + 1) ts with e | pr
  · have h2 := parseTopAux_no_oof (ts.rem + 1) ts (by omega)
    rw [hr] at h2
    intro hc
    simp only [Except.map, Except.error.injEq] at hc
    exact h2 (by rw [hc])
  · intro hc
    exact Except.noConfusion hc

/-- C10.  The parser terminates on every finite token sequence: the
entry point either returns a statement list or fails with a genuine
fatal error — the fuel sentinel of the embedding (the only way a parse
could fail to make progress) is unreachable at the natural fuel,
because every statement parse on a nonempty remainder strictly advances
the cursor, no parse moves the cursor backwards, and the recursion into
nested blocks is bounded by the remaining tokens. -/
theorem c10_parser_terminates :
    (∀ ts : TokenStream, parserParse ts ≠ .error .outOfFuel) ∧
    (∀ (f : Nat) (ts : TokenStream) (r : Option Statement) (ts' : TokenStream),
      parseStatement f ts = .ok (r, ts') →
      ts.pos ≤ ts'.pos ∧ (ts.pos < ts.tokens.length → ts.pos < ts'.pos)) := by
  constructor
  · exact parserParse_no_oof
  · intro f ts r ts' h
    have hsf := (parseStatement_master f).1 ts r ts' h
    exact ⟨hsf.2.1, fun hl => by have := hsf.2.2 hl; omega⟩

/-- Witness for `c10_parser_terminates`: the empty stream terminates,
and a statement parse on the one-token stream `var` advances the
cursor. -/
theorem c10_parser_terminates_witness :
    parserParse ⟨[], 0⟩ ≠ .error .outOfFuel ∧
    (⟨[⟨.Var, "var"⟩], 0⟩ : TokenStream).pos ≤ (⟨[⟨.Var, "var"⟩], 1⟩ : TokenStream).pos ∧
    ((⟨[⟨.Var, "var"⟩], 0⟩ : TokenStream).pos
        < (⟨[⟨.Var, "var"⟩], 0⟩ : TokenStream).tokens.length →
      (⟨[⟨.Var, "var"⟩], 0⟩ : TokenStream).pos < (⟨[⟨.Var, "var"⟩], 1⟩ : TokenStream).pos) := by
  refine ⟨c10_parser_terminates.1 ⟨[], 0⟩, ?_⟩
  exact c10_parser_terminates.2 1 ⟨[⟨.Var, "var"⟩], 0⟩ none ⟨[⟨.Var, "var"⟩], 1⟩ (by rfl)

end Chasm
